import Mathlib

/-!
Verification development for the tree-zipper engine of `src/zippers.js`
(Aloha Editor).  The data model and every operation below are shallow
embeddings of the corresponding JavaScript functions; the few places where
the source depends on capabilities outside the repository (DOM node
creation, `Html.isVoidNode`, `Paths.fromBoundary`) are modelled from the
specification and marked as such in their doc comments.

Conventions used throughout:
  * A JavaScript exception (either a thrown string such as
    "Text offset out of bounds" or a TypeError from touching a field of
    `undefined` / of a raw string) is modelled by `Option`/`Except`
    failure (`none` / `.error`).
  * JavaScript object identity (`===`) for markers is modelled by value
    equality together with the `rid` field, which embeds the process-wide
    `markerCount` counter: distinct `Marker` allocations carry distinct
    `rid`s, so value equality coincides with identity.
  * The `while` loops of the two tree walks are written with an explicit
    fuel argument; the public wrappers supply a fuel that is proved
    sufficient (the loop measure decreases on every iteration), so `none`
    from the wrappers corresponds exactly to a JavaScript crash.
-/

namespace Zippers

/-- A `Record` mirrors a Boromir-wrapped DOM node: a text node carries a
string payload, an element carries a tag name (DOM `nodeName`, uppercase)
and ordered children.  The four extra fields embed the expando properties
that `zippers.js` attaches to records: `isMarkerF` (`record.isMarker`),
`markerName` (`record.marker`), `isFragF` (`record.isFragmentedText`,
written but never read by the source), and `original`
(`record.original`).  `rid` stands for object identity (see above);
the `record.boundary` expando is write-only in the source and omitted. -/
inductive Record where
  | text (s : String) (isMarkerF : Bool) (markerName : Option String)
      (isFragF : Bool) (original : Option Record) (rid : Nat)
  | elem (name : String) (children : List Record) (isMarkerF : Bool)
      (markerName : Option String) (isFragF : Bool)
      (original : Option Record) (rid : Nat)

namespace Record

/-- DOM `nodeName`: `'#text'` for text nodes, the (uppercase) tag for
elements. -/
def name : Record → String
  | .text .. => "#text"
  | .elem n _ _ _ _ _ _ => n

/-- `record.text()` getter; only meaningful on text records (the source
never reads it on an element). -/
def textGet : Record → String
  | .text s _ _ _ _ _ => s
  | .elem .. => ""

/-- `record.children()` getter; only meaningful on element records. -/
def childrenGet : Record → List Record
  | .text .. => []
  | .elem _ cs _ _ _ _ _ => cs

/-- `record.text(newText)` setter (returns an updated record). -/
def setText : Record → String → Record
  | .text _ m mn f o i, s => .text s m mn f o i
  | r@(.elem ..), _ => r

/-- `record.children(newChildren)` setter (returns an updated record). -/
def setChildren : Record → List Record → Record
  | r@(.text ..), _ => r
  | .elem n _ m mn f o i, cs => .elem n cs m mn f o i

def isMarkerF : Record → Bool
  | .text _ m _ _ _ _ => m
  | .elem _ _ m _ _ _ _ => m

def markerName : Record → Option String
  | .text _ _ mn _ _ _ => mn
  | .elem _ _ _ mn _ _ _ => mn

def original : Record → Option Record
  | .text _ _ _ _ o _ => o
  | .elem _ _ _ _ _ o _ => o

def rid : Record → Nat
  | .text _ _ _ _ _ i => i
  | .elem _ _ _ _ _ _ i => i

end Record

/-- `isTextRecord(record)`: `'#text' === record.name()`. -/
def isTextRecord (r : Record) : Bool := r.name == "#text"

/-- `isMarker(record)`: `true === record.isMarker`. -/
def isMarker (r : Record) : Bool := r.isMarkerF

/-- `isFragmentedText(record)`: `'Q' === record.name()`. -/
def isFragmentedText (r : Record) : Bool := r.name == "Q"

mutual

/-- Structural equality of records; used to embed JavaScript `===` on
marker records (see the identity convention in the header). -/
def beqR : Record → Record → Bool
  | .text s1 m1 n1 f1 o1 i1, .text s2 m2 n2 f2 o2 i2 =>
      s1 == s2 && m1 == m2 && n1 == n2 && f1 == f2 && beqRO o1 o2 && i1 == i2
  | .elem a1 c1 m1 n1 f1 o1 i1, .elem a2 c2 m2 n2 f2 o2 i2 =>
      a1 == a2 && beqRL c1 c2 && m1 == m2 && n1 == n2 && f1 == f2 &&
        beqRO o1 o2 && i1 == i2
  | _, _ => false

def beqRL : List Record → List Record → Bool
  | [], [] => true
  | r :: rs, t :: ts => beqR r t && beqRL rs ts
  | _, _ => false

def beqRO : Option Record → Option Record → Bool
  | none, none => true
  | some r, some t => beqR r t
  | _, _ => false

end

mutual

/-- A size function covering every recursive position of `Record`
(children and the `original` back-reference); drives the induction in
`beqR_iff`. -/
def bsize : Record → Nat
  | .text _ _ _ _ o _ => 1 + bsizeO o
  | .elem _ cs _ _ _ o _ => 1 + bsizeL cs + bsizeO o

def bsizeL : List Record → Nat
  | [] => 0
  | r :: rs => 1 + bsize r + bsizeL rs

def bsizeO : Option Record → Nat
  | none => 0
  | some r => 1 + bsize r

end

/-- An entry of a `Location`'s `lefts`/`rights` array.  Almost always a
record; at a text location (`locationInText`) the two sides are raw
string fragments. -/
inductive Item where
  | rcd (r : Record)
  | str (s : String)

/-- `Location(lefts, rights, frames)`: a position between sibling nodes,
with the ancestor cursors stacked in `frames` (nearest enclosing last,
exactly as the JavaScript array). -/
inductive Location where
  | mk (lefts : List Item) (rights : List Item) (frames : List Location)

namespace Location

def lefts : Location → List Item
  | .mk l _ _ => l

def rights : Location → List Item
  | .mk _ r _ => r

def frames : Location → List Location
  | .mk _ _ f => f

end Location

/-- Resolution of one signed `Array.prototype.slice` index against an
array length: a negative index counts from the end (clamped at 0), a
positive one is clamped at the length. -/
def relIndex (len : Nat) (i : Int) : Nat :=
  if i < 0 then min ((len : Int) + i).toNat len else min i.toNat len

/-- JavaScript `Array.prototype.slice` with signed indices; `none` for
the end index means "to the end of the array". -/
def jsSlice (l : List α) (s : Int) (e : Option Int) : List α :=
  let en := match e with
    | none => l.length
    | some i => relIndex l.length i
  (l.take en).drop (relIndex l.length s)

/-- `String(x)` as applied by `Array.prototype.join` to an entry of a
`lefts`/`rights` array.  The record branch is unreachable in the source
(only string fragments ever reach the text setter of `contents`). -/
def itemText : Item → String
  | .str s => s
  | .rcd _ => ""

/-- Coercion performed by the `contents` setter on each entry when the
target is an element (`item instanceof Boromir ? item : Boromir(item)`).
The string branch is unreachable in the source (only records ever reach
the element setter). -/
def itemToRecord : Item → Record
  | .rcd r => r
  | .str s => .text s false none false none 0

/-- `contents(record)` (getter form): the text payload of a text record,
the children of an element. -/
def contentsGet (r : Record) : Sum String (List Record) :=
  if isTextRecord r then .inl r.textGet else .inr r.childrenGet

/-- Wraps the getter's result as `lefts`/`rights` entries.  A string
result is boxed as a single item; the source instead stores the raw
string (only ever consumed through string indexing, which no guarded
call path reaches). -/
def asItems : Sum String (List Record) → List Item
  | .inl s => [.str s]
  | .inr rs => rs.map Item.rcd

/-- `contents(record, content)` (setter form): `record.text(content.join(''))`
for a text record, `record.children(content.map(...))` for an element. -/
def contentsSet (r : Record) (content : List Item) : Record :=
  if isTextRecord r then r.setText (String.join (content.map itemText))
  else r.setChildren (content.map itemToRecord)

/-- `peek(loc)`: the innermost ancestor frame (`Arrays.last`), `none` at
the session root (JavaScript `undefined`). -/
def peek (loc : Location) : Option Location := loc.frames.getLast?

/-- `before(loc)`: the entry immediately left of the cursor. -/
def before (loc : Location) : Option Item := loc.lefts.getLast?

/-- `after(loc)`: the entry at the cursor (`loc.rights[0]`). -/
def afterI (loc : Location) : Option Item := loc.rights.head?

/-- `prev(loc, stride)`: reslice `stride` entries from `lefts` onto the
front of `rights`. -/
def prev (loc : Location) (stride : Int) : Location :=
  .mk (jsSlice loc.lefts 0 (some (-stride)))
    (jsSlice loc.lefts (-stride) none ++ loc.rights) loc.frames

/-- `next(loc, stride)`: reslice `stride` entries from `rights` onto the
back of `lefts`. -/
def next (loc : Location) (stride : Int) : Location :=
  .mk (loc.lefts ++ jsSlice loc.rights 0 (some stride))
    (jsSlice loc.rights stride none) loc.frames

/-- `down(loc)`: descend into the record at the cursor, pushing the
current location as a frame.  The source crashes when the cursor is
`undefined` or a raw string (`contents` reads `.name()`); those cases
are unreachable from the guarded call sites and yield a junk location
here. -/
def down (loc : Location) : Location :=
  match afterI loc with
  | some (.rcd r) => .mk [] (asItems (contentsGet r)) (loc.frames ++ [loc])
  | _ => .mk [] [] (loc.frames ++ [loc])

/-- `up(loc)`, crash-aware: reconstruct the parent's content from
`lefts ++ rights`, write it into the record stored after the popped
frame.  `none` models the TypeError the source raises when `frames` is
empty or the frame's cursor is not a record. -/
def upQ (loc : Location) : Option Location :=
  match loc.frames.getLast? with
  | none => none
  | some frame =>
    match afterI frame with
    | some (.rcd r) =>
      some (.mk frame.lefts
        (.rcd (contentsSet r (loc.lefts ++ loc.rights)) :: frame.rights.drop 1)
        loc.frames.dropLast)
    | _ => none

/-- Total `up`; the fallback branch is the crash case of `upQ` and is
only exercised by `root` on malformed frame stacks. -/
def up (loc : Location) : Location := (upQ loc).getD loc

/-- `root(loc)`: `loc.frames.reduce(up, loc)` — apply `up` once per
frame of the original stack. -/
def root (loc : Location) : Location := loc.frames.foldl (fun l _ => up l) loc

/-- `create(root)`: the initial location of a session. -/
def create (r : Record) : Location := .mk [] [.rcd r] []

/-- `isTextLocation(loc)`: the cursor is a raw string fragment. -/
def isTextLocation (loc : Location) : Bool :=
  match afterI loc with
  | some (.str _) => true
  | _ => false

/-- `isRoot(loc)`: no ancestor frames. -/
def isRoot (loc : Location) : Bool := loc.frames.isEmpty

/-- `isAtStart(loc)`. -/
def isAtStart (loc : Location) : Bool := loc.lefts.isEmpty

/-- `isAtEnd(loc)`. -/
def isAtEnd (loc : Location) : Bool := loc.rights.isEmpty

/-- Modelled from the spec: `Html.isVoidNode` (from the out-of-scope
`html` module) recognizes the leaf-only element types that allow no
children. -/
def isVoidNode (n : String) : Bool :=
  ["AREA", "BASE", "BR", "COL", "EMBED", "HR", "IMG", "INPUT", "LINK",
    "META", "PARAM", "SOURCE", "TRACK", "WBR"].contains n

/-- `isVoid(loc)` restricted to a record cursor: text, marker, or a
void HTML element. -/
def isVoidRec (r : Record) : Bool :=
  isTextRecord r || isMarker r || isVoidNode r.name

/-- `isVoid(loc)`.  The source reads `after(loc).name()` and so crashes
on a string or missing cursor; the loops below check those cases
explicitly before using this. -/
def isVoid (loc : Location) : Bool :=
  match afterI loc with
  | some (.rcd r) => isVoidRec r
  | _ => false

/-- `jump(loc, steps)`. -/
def jump (loc : Location) (steps : Int) : Location :=
  if steps = 0 then loc else next loc steps

/-- `splice(loc, num, replacement)`: drop `num` entries from `rights`,
prepend the replacement items.  The source also accepts a single record
or `undefined` for `replacement`; both normalize to a list. -/
def splice (loc : Location) (num : Int) (replacement : List Item) : Location :=
  .mk loc.lefts (replacement ++ jsSlice loc.rights num none) loc.frames

/-- `insert(loc, items)`. -/
def insert (loc : Location) (items : List Item) : Location := splice loc 0 items

/-- `replace(loc, item)`. -/
def replace (loc : Location) (items : List Item) : Location := splice loc 1 items

/-- `remove(loc)`. -/
def remove (loc : Location) : Location := splice loc 1 []

/-- `createRecord(type)`: a fresh text node for `'#text'`, else a fresh
element (DOM `nodeName` is the uppercased tag).  Fresh DOM nodes carry
no expando flags; their identity is irrelevant to every claim, so `rid`
is 0. -/
def createRecord (ty : String) : Record :=
  if ty == "#text" then .text "" false none false none 0
  else .elem ty.toUpper [] false none false none 0

/-- `createRecord(type, content)`. -/
def createRecordWith (ty : String) (content : List Item) : Record :=
  contentsSet (createRecord ty) content

/-- `clone(record)`: `Boromir(Dom.cloneShallow(record.domNode()))` — a
shallow DOM clone keeps the tag (or text payload) but no children, and
rewrapping drops every expando flag (see the FIXME comments in the
source). -/
def clone (r : Record) : Record :=
  match r with
  | .text s _ _ _ _ _ => .text s false none false none 0
  | .elem n _ _ _ _ _ _ => .elem n [] false none false none 0

/-- `Marker(boundary, name)`: a fresh `code` element (DOM name `CODE`)
tagged `isMarker`, carrying the marker name.  `count` embeds the
process-wide `markerCount` and stands for the node's identity; the
`boundary` expando is write-only in the source and omitted. -/
def Marker (count : Nat) (name : String) : Record :=
  .elem "CODE" [] true (some name) false none count

/-- The transient wrapper allocated by `FragmentedText`: a `q` element
(DOM name `Q`) with `isFragmentedText` set and `original` pointing at
the text record it replaces. -/
def fragWrapper (orig : Record) : Record :=
  .elem "Q" [] false none true (some orig) 0

/-- `FragmentedText(loc)`: wrap the enclosing text record of a text
location in a `fragWrapper`, seeded with one text record per side.
`none` models the crash when `loc` has no frames. -/
def FragmentedText (loc : Location) : Option Location :=
  match upQ loc with
  | none => none
  | some atText =>
    match afterI atText with
    | some (.rcd orig) =>
      let wrapper := fragWrapper orig
      some (.mk [.rcd (contentsSet (createRecord "#text") loc.lefts)]
        [.rcd (contentsSet (createRecord "#text") loc.rights)]
        (down (replace atText [.rcd wrapper])).frames)
    | _ => none

/-- `fragmentsLength(fragments)`: total text length of a fragment
list. -/
def fragmentsLength (fragments : List Record) : Nat :=
  (fragments.map (fun r => r.textGet.length)).sum

/-- `normalizeOffset(record, offset)`: add the number of marker children
preceding the (marker-oblivious) offset. -/
def normalizeOffset (r : Record) (offset : Nat) : Nat :=
  offset + ((r.childrenGet.take offset).filter isMarker).length

/-- The scanning loop of `fragmentedOffset`. -/
def fragmentedOffsetGo : List Record → Nat → Nat → Except String (List Nat)
  | [], _, _ => .error "Text offset out of bounds"
  | fragment :: rest, index, remainder =>
    if isMarker fragment then fragmentedOffsetGo rest (index + 1) remainder
    else if remainder = fragment.textGet.length then .ok [index + 1]
    else if remainder < fragment.textGet.length then .ok [index, remainder]
    else fragmentedOffsetGo rest (index + 1) (remainder - fragment.textGet.length)

/-- `fragmentedOffset(record, offset)`: locate a character offset inside
a fragmented text's children, skipping markers; throws
"Text offset out of bounds" past the total fragment length. -/
def fragmentedOffset (r : Record) (offset : Nat) : Except String (List Nat) :=
  if offset = 0 then .ok [0]
  else fragmentedOffsetGo r.childrenGet 0 offset

/-- `splitText(text, offset)`. -/
def splitText (s : String) (offset : Nat) : String × String :=
  (s.take offset, s.drop offset)

/-- `locationInText(loc, offset)`: split the text record's payload at the
offset and descend, leaving one string fragment on each side. -/
def locationInText (loc : Location) (offset : Nat) : Location :=
  match afterI loc with
  | some (.rcd r) =>
    let t := splitText (match contentsGet r with | .inl s => s | .inr _ => "") offset
    .mk [.str t.1] [.str t.2] (loc.frames ++ [loc])
  | _ => .mk [] [] (loc.frames ++ [loc])

/-- `locationInElement(loc, offset)`: descend and move right by the
marker-adjusted offset. -/
def locationInElement (loc : Location) (offset : Nat) : Location :=
  match afterI loc with
  | some (.rcd r) => next (down loc) (normalizeOffset r offset : Nat)
  | _ => down loc

/-- `locationInFragment(loc, offset)`: resolve an offset inside a
fragmented text, splitting a fragment in two when the offset falls
strictly inside it. -/
def locationInFragment (loc : Location) (offset : Nat) :
    Except String Location :=
  match afterI loc with
  | some (.rcd r) => do
    let offsets ← fragmentedOffset r offset
    match offsets with
    | [] => .error "unreachable: fragmentedOffset returns 1 or 2 offsets"
    | i :: tl =>
      let atText := next (down loc) (i : Nat)
      match tl with
      | [] => .ok atText
      | o2 :: _ =>
        let s := match afterI atText with
          | some (.rcd tr) => match contentsGet tr with
            | .inl s => s
            | .inr _ => ""
          | _ => ""
        let t := splitText s o2
        .ok (next (splice atText 1
          [.rcd (createRecordWith "#text" [.str t.1]),
            .rcd (createRecordWith "#text" [.str t.2])]) 1)
  | _ => .error "TypeError: no record at the cursor"

/-- The inner `while (isMarker(after(loc))) loc = next(loc)` loop of
`traverse`, with fuel bounded by the length of `rights` (each `next`
removes one entry).  A missing cursor crashes in the source
(`undefined.isMarker`); a string cursor has no `isMarker` field and
simply ends the loop. -/
def skipMarkersGo (fuel : Nat) (loc : Location) : Except String Location :=
  match afterI loc with
  | none => .error "TypeError: cannot read isMarker of undefined"
  | some (.str _) => .ok loc
  | some (.rcd r) =>
    if isMarker r then
      match fuel with
      | 0 => .error "unreachable: rights shrink on every skip"
      | f + 1 => skipMarkersGo f (next loc 1)
    else .ok loc

/-- The marker-skipping prelude of each `traverse` step. -/
def skipMarkers (loc : Location) : Except String Location :=
  skipMarkersGo loc.rights.length loc

/-- `traverse(loc, path)`: resolve a structural path, one offset per
level; returns inside the text record (via `locationInText`) when one is
reached. -/
def traverse (loc : Location) (path : List Nat) : Except String Location :=
  match path with
  | [] => .ok loc
  | offset :: rest => do
    let loc ← skipMarkers loc
    match afterI loc with
    | some (.rcd r) =>
      if isTextRecord r then .ok (locationInText loc offset)
      else if isFragmentedText r then do
        let l ← locationInFragment loc offset
        traverse l rest
      else traverse (locationInElement loc offset) rest
    | _ => .error "TypeError: no record at the cursor"

/-- `mark(loc, marker)`: insert the marker, fragmenting the enclosing
text record first when the location is inside text. -/
def mark (loc : Location) (marker : Record) : Option Location :=
  if isTextLocation loc then
    (FragmentedText loc).map (fun l => insert l [.rcd marker])
  else some (insert loc [.rcd marker])

/-- `insertMarker(marker, loc, path)`. -/
def insertMarker (marker : Record) (loc : Location) (path : List Nat) :
    Except String Location :=
  match traverse loc path with
  | .error e => .error e
  | .ok l =>
    match mark l marker with
    | none => .error "TypeError: up at the session root"
    | some l2 => .ok (root l2)

/-- A boundary value is opaque to the core; the path-conversion
capability is passed in explicitly (see `markTree`). -/
abbrev Boundary := List Nat

/-- `clipCommonRoot(root, path)`: the suffix of `path` after the shared
prefix with `root`, or `[]` as soon as they diverge inside `root`
(a missing `path` entry compares unequal to a number, as in the
source). -/
def clipCommonRoot : List Nat → List Nat → List Nat
  | [], path => path
  | _ :: _, [] => []
  | r :: rs, p :: ps => if p = r then clipCommonRoot rs ps else []

/-- `markTree(tree, boundary, markerName)`.  The two path conversions
are modelled from the spec: `pathOfBoundary` stands for
`Paths.fromBoundary(body, boundary)` and `rootPathOf` for
`Paths.fromBoundary(body, Boundaries.fromFrontOfNode(element))`, the
out-of-scope boundary↔path capability.  `count` threads the
process-wide `markerCount`. -/
def markTree (pathOfBoundary : Boundary → List Nat)
    (rootPathOf : Record → List Nat) (tree : Location) (boundary : Boundary)
    (markerName : String) (count : Nat) :
    Except String (Location × Option Record × Nat) :=
  match afterI tree with
  | some (.rcd element) =>
    let rootPath := rootPathOf element
    let path := pathOfBoundary boundary
    let clipped := clipCommonRoot rootPath path
    if clipped.isEmpty then .ok (tree, none, count)
    else
      let marker := Marker (count + 1) markerName
      match insertMarker marker tree clipped with
      | .error e => .error e
      | .ok t => .ok (t, some marker, count + 1)
  | _ => .error "TypeError: no element at the cursor"

/-- `markup(tree, marked)`: place one marker per named boundary, in
iteration order, threading the updated tree; collects
name → marker-or-null. -/
def markup (pathOfBoundary : Boundary → List Nat)
    (rootPathOf : Record → List Nat) (tree : Location)
    (marked : List (String × Boundary)) (count : Nat) :
    Except String (Location × List (String × Option Record)) :=
  match marked with
  | [] => .ok (tree, [])
  | (key, value) :: rest => do
    let (t, m, c) ← markTree pathOfBoundary rootPathOf tree value key count
    let (t2, ms) ← markup pathOfBoundary rootPathOf t rest c
    .ok (t2, (key, m) :: ms)

/-- `zipper(element, boundaries)`. -/
def zipper (pathOfBoundary : Boundary → List Nat)
    (rootPathOf : Record → List Nat) (element : Record)
    (boundaries : List (String × Boundary)) (count : Nat) :
    Except String (Location × List (String × Option Record)) :=
  markup pathOfBoundary rootPathOf (create element) boundaries count

/-- `defragmentText(record)`: concatenate the text of the text children;
reuse `record.original` when the concatenation matches its text, else
build a fresh text record. -/
def defragmentText (record : Record) : Record :=
  let text := String.join ((record.childrenGet.filter isTextRecord).map
    Record.textGet)
  match record.original with
  | some o => if o.textGet == text then o else createRecordWith "#text" [.str text]
  | none => createRecordWith "#text" [.str text]

/-- `split(loc, until)`, with fuel: each recursive step pops one frame,
so `loc.frames.length` steps always suffice (`split` itself below).
`none` models the crash of `isRoot(peek(loc))` when `frames` is
empty. -/
def splitGo : Nat → Location → (Location → Bool) → Option Location
  | fuel, loc, untilP =>
    match peek loc with
    | none => none
    | some f =>
      if isRoot f || untilP loc then some loc
      else
        match fuel with
        | 0 => none
        | fuel + 1 =>
          match upQ loc with
          | none => none
          | some upper =>
            match afterI upper with
            | some (.rcd parent) =>
              let lhalf := if isTextLocation loc then createRecord "#text"
                else clone parent
              let rhalf := if isTextLocation loc then createRecord "#text"
                else clone parent
              let lhalf := contentsSet lhalf loc.lefts
              let rhalf := contentsSet rhalf loc.rights
              splitGo fuel
                (.mk (upper.lefts ++ [.rcd lhalf])
                  (.rcd rhalf :: upper.rights.drop 1) upper.frames) untilP
            | _ => none

/-- `split(loc, until)`. -/
def split (loc : Location) (untilP : Location → Bool) : Option Location :=
  splitGo loc.frames.length loc untilP

mutual

/-- Number of records in a subtree; basis of the loop measure of the two
tree walks. -/
def rsizeR : Record → Nat
  | .text .. => 1
  | .elem _ cs _ _ _ _ _ => 1 + rsizeL cs

def rsizeL : List Record → Nat
  | [] => 0
  | r :: rs => rsizeR r + rsizeL rs

end

def isize : Item → Nat
  | .rcd r => rsizeR r
  | .str _ => 1

def ilistSize (l : List Item) : Nat := (l.map isize).sum

/-- Contribution of one ancestor frame to the walk measure: the siblings
still to the right of the node being visited, plus one for the pending
ascent. -/
def frameWeight (f : Location) : Nat := 2 * ilistSize (f.rights.drop 1) + 1

/-- Strictly decreases on every iteration of both walk loops; the public
walk wrappers pass it (plus one) as fuel. -/
def walkMeasure (loc : Location) : Nat :=
  2 * ilistSize loc.rights + (loc.frames.map frameWeight).sum

/-- `loc.lefts.filter(isTextRecord)` as used in the void branch of
`walkPostOrder`; `none` models the crash of `.name()` on a raw string
entry. -/
def textFragsOfItems : List Item → Option (List Record)
  | [] => some []
  | .str _ :: _ => none
  | .rcd r :: rest =>
    (textFragsOfItems rest).map fun rs =>
      if isTextRecord r then r :: rs else rs

/-- The effective offset handed to `mutate` for a void node: a
fragment-aware character offset when the parent is a fragmented text,
else the plain sibling count.  `parentLoc` is `up(loc)`. -/
def offsetOfVoid (loc parentLoc : Location) : Option Nat :=
  let isFrag := match afterI parentLoc with
    | some (.rcd p) => isFragmentedText p
    | _ => false
  if isFrag then (textFragsOfItems loc.lefts).map fragmentsLength
  else some loc.lefts.length

/-- The `while (true)` loop of `walkPostOrder`, with fuel.  `none` models
the three crash states of the source: `up` at the session root (both in
the ascend branch and in the void-offset computation) and `isVoid` /
`isTextRecord` on a raw string entry. -/
def wpoLoopF (mutate : Record → List Nat → List Record) :
    Nat → Location → List Nat → Option Location
  | 0, _, _ => none
  | fuel + 1, loc, trail =>
    if isAtEnd loc then
      match upQ loc with
      | none => none
      | some l =>
        if isRoot l then some l
        else
          match afterI l with
          | some (.rcd r) =>
            let trail2 := trail.dropLast
            let repl := mutate r trail2
            wpoLoopF mutate fuel
              (jump (replace l (repl.map Item.rcd)) repl.length) trail2
          | _ => none
    else
      match afterI loc with
      | some (.rcd r) =>
        if isVoidRec r then
          match upQ loc with
          | none => none
          | some l2 =>
            match offsetOfVoid loc l2 with
            | none => none
            | some offset =>
              let repl := mutate r (trail ++ [offset])
              wpoLoopF mutate fuel
                (jump (replace loc (repl.map Item.rcd)) repl.length) trail
        else
          let trail2 := if isRoot loc then trail else trail ++ [loc.lefts.length]
          wpoLoopF mutate fuel (down loc) trail2
      | some (.str _) => none
      | none => none

/-- `walkPostOrder(loc, mutate)`. -/
def walkPostOrder (loc : Location)
    (mutate : Record → List Nat → List Record) : Option Location :=
  wpoLoopF mutate (walkMeasure (root loc) + 1) (root loc) []

/-- The inner `do { ... } while (isAtEnd(loc))` ascent of
`walkPreOrderWhile`: `.inl` is the early return at the session root,
`.inr` hands the ascended location back to the outer loop.  One frame is
popped per iteration, so `frames.length + 1` fuel always suffices (and
in fact a single iteration does: `up` never yields an empty `rights`). -/
def upWhileEnd : Nat → Location → Option (Location ⊕ Location)
  | 0, _ => none
  | fuel + 1, loc =>
    if isRoot loc then some (.inl loc)
    else
      match upQ loc with
      | none => none
      | some l => if isAtEnd l then upWhileEnd fuel l else some (.inr l)

/-- The `while (pred(loc))` loop of `walkPreOrderWhile`, with fuel.
`none` models `isVoid` crashing on a raw string entry (and fuel
exhaustion, which the wrapper's fuel rules out). -/
def wpowLoopF (pred : Location → Bool) : Nat → Location → Option Location
  | 0, _ => none
  | fuel + 1, loc =>
    if pred loc then
      if isAtEnd loc then
        match upWhileEnd (loc.frames.length + 1) loc with
        | some (.inl l) => some l
        | some (.inr l) => wpowLoopF pred fuel (next l 1)
        | none => none
      else
        match afterI loc with
        | some (.rcd r) =>
          if isVoidRec r then wpowLoopF pred fuel (next loc 1)
          else wpowLoopF pred fuel (down loc)
        | some (.str _) => none
        | none => none
    else some loc

/-- `walkPreOrderWhile(loc, pred)`. -/
def walkPreOrderWhile (loc : Location) (pred : Location → Bool) :
    Option Location :=
  wpowLoopF pred (walkMeasure (root loc) + 1) (root loc)

/-- The continuation predicate of `gotoMarker`: keep walking while the
cursor is not the marker itself (compared by identity; a missing or
string cursor compares false, as `undefined && ...` does). -/
def markerPred (marker : Record) (loc : Location) : Bool :=
  !(match afterI loc with
    | some (.rcd r) => isMarker r && beqR r marker
    | _ => false)

/-- `gotoMarker(tree, marker)`: pre-order search for the marker by
identity; the outer `Option` is the crash channel of the walk, the inner
one is the source's `null` result when the walk ends at the root. -/
def gotoMarker (tree : Location) (marker : Record) : Option (Option Location) :=
  match walkPreOrderWhile (root tree) (markerPred marker) with
  | none => none
  | some loc => some (if isRoot loc then none else some loc)

mutual

/-- The records whose cursor positions the pre-order walk actually
visits inside a subtree: the root of the subtree, then (unless it is
void, in which case the walk steps over it) the visits of its
children. -/
def preVisit : Record → List Record
  | r@(.text ..) => [r]
  | r@(.elem _ cs _ _ _ _ _) => r :: (if isVoidRec r then [] else preVisitL cs)

def preVisitL : List Record → List Record
  | [] => []
  | r :: rs => preVisit r ++ preVisitL rs

end

mutual

/-- Structural containment of `m` anywhere in the tree `t` (by the
identity embedding `beqR`). -/
def occursB (m : Record) : Record → Bool
  | t@(.text ..) => beqR m t
  | t@(.elem _ cs _ _ _ _ _) => beqR m t || occursBL m cs

def occursBL (m : Record) : List Record → Bool
  | [] => false
  | r :: rs => occursB m r || occursBL m rs

end

/-- A plain text record (fresh text node without expando flags). -/
def mkText (s : String) : Record := .text s false none false none 0

/-- A plain element record (fresh element without expando flags). -/
def mkElem (n : String) (cs : List Record) : Record :=
  .elem n cs false none false none 0

/-- Total fragment length of a fragmented text's children: the text of
the non-marker fragments. -/
def fragsTotal (frags : List Record) : Nat :=
  fragmentsLength (frags.filter (fun c => !isMarker c))

/-- The concatenation described by the spec for `defragmentText`: the
text of all non-marker text children. -/
def catSpec (record : Record) : String :=
  String.join ((record.childrenGet.filter
    (fun c => isTextRecord c && !isMarker c)).map Record.textGet)

/-- Fragmented text with fragments "ab", "cd" (claim C3's table). -/
def sampleFrag : Record := mkElem "Q" [mkText "ab", mkText "cd"]

/-- Fragments "ab" + "c" against original "abc". -/
def sampleFragABC : Record :=
  .elem "Q" [mkText "ab", mkText "c"] false none true (some (mkText "abc")) 0

/-- Fragments "ab" + "d" against original "abc". -/
def sampleFragABD : Record :=
  .elem "Q" [mkText "ab", mkText "d"] false none true (some (mkText "abc")) 0

/-- One step towards the split point on the left side: the content of
the last (rightmost) record of the given entries. -/
def peelL (items : List Item) : Option (List Item) :=
  match items.getLast? with
  | some (.rcd r) => some (asItems (contentsGet r))
  | _ => none

/-- One step towards the split point on the right side: the content of
the first (leftmost) record of the given entries. -/
def peelR (items : List Item) : Option (List Item) :=
  match items.head? with
  | some (.rcd r) => some (asItems (contentsGet r))
  | _ => none

/-- Content reachable `d` levels down the last-child chain — after
`split`, the left seed of the innermost split level. -/
def extractL : Nat → List Item → Option (List Item)
  | 0, items => some items
  | d + 1, items => (peelL items).bind (extractL d)

/-- Content reachable `d` levels down the first-child chain — after
`split`, the right seed of the innermost split level. -/
def extractR : Nat → List Item → Option (List Item)
  | 0, items => some items
  | d + 1, items => (peelR items).bind (extractR d)

/-- The frame-stack discipline every location constructed by the zipper
obeys, on the reversed stack: each frame's own stack consists of the
frames below it. -/
def chainRev : List Location → Prop
  | [] => True
  | f :: rest => f.frames = rest.reverse ∧ chainRev rest

/-- `frames` discipline in stack order (bottom frame first, as stored). -/
def framesChain (fs : List Location) : Prop := chainRev fs.reverse

/-- Every entry of the given side is a record (no raw string
fragments). -/
def sideRec (its : List Item) : Prop := ∀ it ∈ its, ∃ r, it = Item.rcd r

/-- A well-formed ancestor frame: record-only sides and a record at the
cursor (the node that was descended into). -/
def frameOK (f : Location) : Prop :=
  sideRec f.lefts ∧ sideRec f.rights ∧ ∃ r, afterI f = some (.rcd r)

/-- The frame's cursor record is not a text record (text parents occur
only at the innermost frame of a text location). -/
def frameNonText (f : Location) : Prop :=
  ∀ r, afterI f = some (.rcd r) → isTextRecord r = false

/-- Well-formedness of a location handed to `split`: a disciplined frame
stack whose non-innermost frames enclose elements, and sides that are
either record-only below an element parent or the two string fragments
of a text location. -/
def splitOK (loc : Location) : Prop :=
  framesChain loc.frames ∧ (∀ f ∈ loc.frames, frameOK f) ∧
  (∀ f ∈ loc.frames.dropLast, frameNonText f) ∧
  ((sideRec loc.lefts ∧ sideRec loc.rights ∧
      (∀ f, peek loc = some f → frameNonText f)) ∨
    (∃ a b, loc.lefts = [.str a] ∧ loc.rights = [.str b]))

/-- `<p><b>xy</b></p>`, the tree of the split witness. -/
def wT : Record := mkElem "P" [mkElem "B" [mkText "x", mkText "y"]]

/-- The session root location of the split witness. -/
def wF0 : Location := .mk [] [.rcd wT] []

/-- The location inside `<p>`, at `<b>`. -/
def wF1 : Location := .mk [] [.rcd (mkElem "B" [mkText "x", mkText "y"])] [wF0]

/-- The location inside `<b>`, between the two text records. -/
def wLoc : Location := .mk [.rcd (mkText "x")] [.rcd (mkText "y")] [wF0, wF1]

/-- Rebuilding the root content from a walk state, processing the
(reversed) frame stack innermost-first exactly as iterated `up` would;
`none` when a frame's cursor is not a record (where `up` crashes). -/
def reassembleRev : List Location → List Item → Option (List Item)
  | [], content => some content
  | f :: rest, content =>
    match afterI f with
    | some (.rcd r) => reassembleRev rest
        (f.lefts ++ .rcd (contentsSet r content) :: f.rights.drop 1)
    | _ => none

/-- The root content a walk state reassembles to. -/
def reassemble (loc : Location) : Option (List Item) :=
  reassembleRev loc.frames.reverse (loc.lefts ++ loc.rights)

/-- `preVisit` over a side of items (string fragments contribute
nothing; they never occur on the walks). -/
def preVisitItems : List Item → List Record
  | [] => []
  | .rcd r :: rest => preVisit r ++ preVisitItems rest
  | .str _ :: rest => preVisitItems rest

/-- Records the pre-order walk still visits inside the ancestor frames,
innermost frame first (the frame stack stores the bottom first). -/
def visitFrames : List Location → List Record
  | [] => []
  | f :: rest => visitFrames rest ++ preVisitItems (f.rights.drop 1)

/-- All records the pre-order walk will still visit from a state. -/
def visitList (loc : Location) : List Record :=
  preVisitItems loc.rights ++ visitFrames loc.frames

/-- Invariant of the `walkPostOrder` loop started from `create T`:
record-only sides, well-formed frames, and the bottom state is the
initial location. -/
def wpoInv (T : Record) (loc : Location) : Prop :=
  sideRec loc.lefts ∧ sideRec loc.rights ∧
  (∀ f ∈ loc.frames, frameOK f) ∧
  (loc.frames = [] → loc = create T)

/-- Invariant of the `walkPreOrderWhile` loop started from `create T`. -/
def wpowInv (T : Record) (loc : Location) : Prop :=
  sideRec loc.rights ∧
  (∀ f ∈ loc.frames, sideRec (f.rights.drop 1) ∧ ∃ r, afterI f = some (.rcd r)) ∧
  (loc.frames = [] → loc = create T ∨ loc.rights = []) ∧
  (∀ f, loc.frames.head? = some f → f.rights.drop 1 = [])

/-! ## General lemmas -/

theorem bsize_pos (r : Record) : 1 ≤ bsize r := by
  cases r <;> simp [bsize] <;> omega

theorem beqR_iff_aux (n : Nat) :
    (∀ a b : Record, bsize a ≤ n → (beqR a b = true ↔ a = b)) ∧
    (∀ l1 l2 : List Record, bsizeL l1 ≤ n → (beqRL l1 l2 = true ↔ l1 = l2)) ∧
    (∀ o1 o2 : Option Record, bsizeO o1 ≤ n → (beqRO o1 o2 = true ↔ o1 = o2)) := by
  induction n with
  | zero =>
    refine ⟨fun a b h => absurd h (by have := bsize_pos a; omega), ?_, ?_⟩
    · intro l1 l2 h
      cases l1 with
      | nil => cases l2 <;> simp [beqRL]
      | cons r rs =>
        exact absurd h (by have := bsize_pos r; simp only [bsizeL]; omega)
    · intro o1 o2 h
      cases o1 with
      | none => cases o2 <;> simp [beqRO, bsizeO]
      | some r =>
        exact absurd h (by have := bsize_pos r; simp only [bsizeO]; omega)
  | succ n ih =>
    obtain ⟨ihR, ihL, ihO⟩ := ih
    refine ⟨?_, ?_, ?_⟩
    · intro a b h
      cases a with
      | text s1 m1 n1 f1 o1 i1 =>
        cases b with
        | text s2 m2 n2 f2 o2 i2 =>
          have hO : bsizeO o1 ≤ n := by simp [bsize] at h; omega
          simp [beqR, Bool.and_eq_true, ihO o1 o2 hO, and_assoc]
        | elem => simp [beqR]
      | elem a1 c1 m1 n1 f1 o1 i1 =>
        cases b with
        | text => simp [beqR]
        | elem a2 c2 m2 n2 f2 o2 i2 =>
          have hL : bsizeL c1 ≤ n := by simp [bsize] at h; omega
          have hO : bsizeO o1 ≤ n := by simp [bsize] at h; omega
          simp [beqR, Bool.and_eq_true, ihL c1 c2 hL, ihO o1 o2 hO, and_assoc]
    · intro l1 l2 h
      cases l1 with
      | nil => cases l2 <;> simp [beqRL]
      | cons r rs =>
        cases l2 with
        | nil => simp [beqRL]
        | cons t ts =>
          have h1 : bsize r ≤ n := by simp [bsizeL] at h; omega
          have h2 : bsizeL rs ≤ n := by simp [bsizeL] at h; omega
          simp [beqRL, Bool.and_eq_true, ihR r t h1, ihL rs ts h2]
    · intro o1 o2 h
      cases o1 with
      | none => cases o2 <;> simp [beqRO]
      | some r =>
        cases o2 with
        | none => simp [beqRO]
        | some t =>
          have h1 : bsize r ≤ n := by simp [bsizeO] at h; omega
          simp [beqRO, ihR r t h1]

theorem beqR_iff (a b : Record) : beqR a b = true ↔ a = b :=
  (beqR_iff_aux (bsize a)).1 a b le_rfl

@[simp] theorem Location.lefts_mk (l r : List Item) (f : List Location) :
    (Location.mk l r f).lefts = l := rfl

@[simp] theorem Location.rights_mk (l r : List Item) (f : List Location) :
    (Location.mk l r f).rights = r := rfl

@[simp] theorem Location.frames_mk (l r : List Item) (f : List Location) :
    (Location.mk l r f).frames = f := rfl

theorem Location.ext (loc : Location) :
    loc = .mk loc.lefts loc.rights loc.frames := by
  cases loc
  rfl

theorem relIndex_ofNat (len n : Nat) : relIndex len (n : Int) = min n len := by
  rw [relIndex, if_neg (by omega), Int.toNat_natCast]

theorem relIndex_zero (len : Nat) : relIndex len 0 = 0 := by
  simpa using relIndex_ofNat len 0

theorem relIndex_ge (len : Nat) (s : Int) (h : (len : Int) ≤ s) :
    relIndex len s = len := by
  rw [relIndex, if_neg (by omega), min_eq_right (by omega)]

theorem relIndex_neg_ge (len : Nat) (s : Int) (h : (len : Int) ≤ s) :
    relIndex len (-s) = 0 := by
  by_cases hneg : -s < 0
  · rw [relIndex, if_pos hneg, show ((len : Int) + -s).toNat = 0 by omega,
      Nat.zero_min]
  · have hl : len = 0 := by omega
    subst hl
    rw [relIndex, if_neg hneg, Nat.min_zero]

theorem jsSlice_zero_none (l : List α) : jsSlice l 0 none = l := by
  simp [jsSlice, relIndex_zero]

theorem jsSlice_ofNat_none (l : List α) (n : Nat) :
    jsSlice l (n : Int) none = l.drop n := by
  simp only [jsSlice, relIndex_ofNat, List.take_length]
  rcases Nat.le_total n l.length with h | h
  · rw [min_eq_left h]
  · rw [min_eq_right h, List.drop_of_length_le le_rfl,
      List.drop_of_length_le h]

theorem jsSlice_zero_some_ofNat (l : List α) (n : Nat) :
    jsSlice l 0 (some (n : Int)) = l.take n := by
  simp only [jsSlice, relIndex_ofNat, relIndex_zero, List.drop_zero]
  rcases Nat.le_total n l.length with h | h
  · rw [min_eq_left h]
  · rw [min_eq_right h, List.take_of_length_le le_rfl,
      List.take_of_length_le h]

theorem jsSlice_zero_some_zero (l : List α) : jsSlice l 0 (some 0) = [] := by
  simpa using jsSlice_zero_some_ofNat l 0

theorem jsSlice_ge_none (l : List α) (s : Int) (h : (l.length : Int) ≤ s) :
    jsSlice l s none = [] := by
  simp [jsSlice, relIndex_ge l.length s h, List.drop_of_length_le]

theorem jsSlice_zero_some_neg_ge (l : List α) (s : Int)
    (h : (l.length : Int) ≤ s) : jsSlice l 0 (some (-s)) = [] := by
  simp [jsSlice, relIndex_neg_ge l.length s h, relIndex_zero]

theorem jsSlice_neg_ge_none (l : List α) (s : Int)
    (h : (l.length : Int) ≤ s) : jsSlice l (-s) none = l := by
  simp [jsSlice, relIndex_neg_ge l.length s h]

theorem jsSlice_split (l : List α) (k : Int) :
    jsSlice l 0 (some k) ++ jsSlice l k none = l := by
  simp only [jsSlice, relIndex_zero, List.drop_zero, List.take_length]
  exact List.take_append_drop (relIndex l.length k) l

theorem jsSlice_one_none (l : List α) : jsSlice l 1 none = l.drop 1 := by
  simpa using jsSlice_ofNat_none l 1

/-! ## Claim C9 -/

/-- C9: at the public interface, `next(loc, 0)` is the identity, while
`prev(loc, 0)` slices with `-0` (which behaves as `0`) and therefore
returns a location with empty `lefts` and `lefts ++ rights` on the
right — so `prev` with stride 0 is not the identity whenever `lefts` is
non-empty. -/
theorem claim_C9_zero_stride_asymmetry (loc : Location) :
    next loc 0 = loc ∧
    prev loc 0 = .mk [] (loc.lefts ++ loc.rights) loc.frames ∧
    (loc.lefts ≠ [] → prev loc 0 ≠ loc) := by
  have hnext : next loc 0 = loc := by
    simp only [next, jsSlice_zero_some_zero, jsSlice_zero_none, List.append_nil]
    exact (Location.ext loc).symm
  have hprev : prev loc 0 = .mk [] (loc.lefts ++ loc.rights) loc.frames := by
    simp only [prev, neg_zero, jsSlice_zero_some_zero, jsSlice_zero_none]
  refine ⟨hnext, hprev, fun h hc => h ?_⟩
  rw [hprev] at hc
  simpa using (congrArg Location.lefts hc).symm

/-- Witness for C9 at a concrete location with one entry on the left. -/
theorem claim_C9_witness :
    (Location.mk [Item.str "a"] [] []).lefts ≠ [] ∧
    prev (Location.mk [Item.str "a"] [] []) 0 ≠ Location.mk [Item.str "a"] [] [] :=
  ⟨by simp, (claim_C9_zero_stride_asymmetry (Location.mk [Item.str "a"] [] [])).2.2
    (by simp)⟩

/-! ## Claim C8 -/

/-- C8: navigation and splice never fail on excess counts — `prev`/`next`
with a stride at least the number of available siblings produce an empty
sequence on that side with all content on the other, `splice` with a drop
count at least the length of `rights` keeps only the replacement items,
and `prev`/`next` preserve the `lefts ++ rights` content for every
stride; all results are defined locations, no bounds error is raised. -/
theorem claim_C8_excess_counts (loc : Location) (s num : Int)
    (repl : List Item) :
    ((loc.lefts.length : Int) ≤ s →
      prev loc s = .mk [] (loc.lefts ++ loc.rights) loc.frames) ∧
    ((loc.rights.length : Int) ≤ s →
      next loc s = .mk (loc.lefts ++ loc.rights) [] loc.frames) ∧
    ((loc.rights.length : Int) ≤ num →
      splice loc num repl = .mk loc.lefts repl loc.frames) ∧
    (prev loc s).lefts ++ (prev loc s).rights = loc.lefts ++ loc.rights ∧
    (next loc s).lefts ++ (next loc s).rights = loc.lefts ++ loc.rights := by
  refine ⟨fun h => ?_, fun h => ?_, fun h => ?_, ?_, ?_⟩
  · simp only [prev]
    rw [jsSlice_zero_some_neg_ge _ _ h, jsSlice_neg_ge_none _ _ h]
  · simp only [next]
    rw [show s = ((s.toNat : Nat) : Int) by omega, jsSlice_zero_some_ofNat,
      jsSlice_ofNat_none, List.take_of_length_le (by omega),
      List.drop_of_length_le (by omega)]
  · simp only [splice]
    rw [jsSlice_ge_none _ _ h, List.append_nil]
  · simp only [prev, Location.lefts_mk, Location.rights_mk, ← List.append_assoc]
    rw [show -s = (-s) by rfl]
    have := jsSlice_split loc.lefts (-s)
    rw [this]
  · simp only [next, Location.lefts_mk, Location.rights_mk, List.append_assoc]
    rw [jsSlice_split loc.rights s]

/-- Witness for C8 at a concrete location, with stride and drop count 5
exceeding both sides. -/
theorem claim_C8_witness :
    ((Location.mk [Item.str "a"] [Item.str "b"] []).lefts.length : Int) ≤ 5 ∧
    prev (Location.mk [Item.str "a"] [Item.str "b"] []) 5 =
      .mk [] [Item.str "a", Item.str "b"] [] ∧
    next (Location.mk [Item.str "a"] [Item.str "b"] []) 5 =
      .mk [Item.str "a", Item.str "b"] [] [] ∧
    splice (Location.mk [Item.str "a"] [Item.str "b"] []) 5 [Item.str "c"] =
      .mk [Item.str "a"] [Item.str "c"] [] := by
  have h := claim_C8_excess_counts (Location.mk [Item.str "a"] [Item.str "b"] [])
    5 5 [Item.str "c"]
  exact ⟨by simp, h.1 (by simp), h.2.1 (by simp), h.2.2.1 (by simp)⟩

/-! ## Claim C3 -/

theorem fragsTotal_nil : fragsTotal [] = 0 := by
  simp [fragsTotal, fragmentsLength]

theorem fragsTotal_cons_marker (c : Record) (rest : List Record)
    (hm : isMarker c = true) : fragsTotal (c :: rest) = fragsTotal rest := by
  simp [fragsTotal, List.filter_cons, hm]

theorem fragsTotal_cons_frag (c : Record) (rest : List Record)
    (hm : isMarker c = false) :
    fragsTotal (c :: rest) = c.textGet.length + fragsTotal rest := by
  simp [fragsTotal, List.filter_cons, hm, fragmentsLength]

theorem fragmentedOffsetGo_spec (frags : List Record) :
    ∀ (idx rem : Nat), 1 ≤ rem →
      ((∃ v, fragmentedOffsetGo frags idx rem = .ok v) ↔
        rem ≤ fragsTotal frags) ∧
      (fragsTotal frags < rem →
        fragmentedOffsetGo frags idx rem = .error "Text offset out of bounds") := by
  induction frags with
  | nil =>
    intro idx rem h1
    refine ⟨⟨fun ⟨v, hv⟩ => ?_, fun hle => absurd hle (by rw [fragsTotal_nil]; omega)⟩,
      fun _ => rfl⟩
    simp [fragmentedOffsetGo] at hv
  | cons c rest ih =>
    intro idx rem h1
    by_cases hm : isMarker c
    · rw [fragsTotal_cons_marker c rest hm]
      have hgo : fragmentedOffsetGo (c :: rest) idx rem =
          fragmentedOffsetGo rest (idx + 1) rem := by
        simp [fragmentedOffsetGo, hm]
      rw [hgo]
      exact ih (idx + 1) rem h1
    · rw [fragsTotal_cons_frag c rest (by simpa using hm)]
      rcases Nat.lt_trichotomy rem c.textGet.length with hlt | heq | hgt
      · have hgo : fragmentedOffsetGo (c :: rest) idx rem = .ok [idx, rem] := by
          simp [fragmentedOffsetGo, hm, hlt, Nat.ne_of_lt hlt]
        rw [hgo]
        exact ⟨⟨fun _ => by omega, fun _ => ⟨[idx, rem], rfl⟩⟩,
          fun hc => absurd hc (by omega)⟩
      · have hgo : fragmentedOffsetGo (c :: rest) idx rem = .ok [idx + 1] := by
          simp [fragmentedOffsetGo, hm, heq]
        rw [hgo]
        exact ⟨⟨fun _ => by omega, fun _ => ⟨[idx + 1], rfl⟩⟩,
          fun hc => absurd hc (by omega)⟩
      · have hgo : fragmentedOffsetGo (c :: rest) idx rem =
            fragmentedOffsetGo rest (idx + 1) (rem - c.textGet.length) := by
          simp [fragmentedOffsetGo, hm, Nat.ne_of_gt hgt,
            Nat.not_lt.mpr (Nat.le_of_lt hgt)]
        rw [hgo]
        have := ih (idx + 1) (rem - c.textGet.length) (by omega)
        exact ⟨by rw [this.1]; omega, fun hc => this.2 (by omega)⟩

/-- C3: `fragmentedOffset` on marker-free fragments "ab", "cd" returns
`[0]` at offset 0, `[1]` at 2, `[1, 1]` at 3, `[2]` at 4 and throws the
out-of-bounds error at 5; in general (children all markers or text
fragments) it succeeds exactly when the offset is at most the total
fragment length and throws the out-of-bounds error beyond it. -/
theorem claim_C3_fragmentedOffset :
    fragmentedOffset sampleFrag 0 = .ok [0] ∧
    fragmentedOffset sampleFrag 2 = .ok [1] ∧
    fragmentedOffset sampleFrag 3 = .ok [1, 1] ∧
    fragmentedOffset sampleFrag 4 = .ok [2] ∧
    fragmentedOffset sampleFrag 5 = .error "Text offset out of bounds" ∧
    ∀ (r : Record) (offset : Nat),
      (∀ c ∈ r.childrenGet, isMarker c = true ∨ isTextRecord c = true) →
      (((∃ v, fragmentedOffset r offset = .ok v) ↔
          offset ≤ fragsTotal r.childrenGet) ∧
        (fragsTotal r.childrenGet < offset →
          fragmentedOffset r offset = .error "Text offset out of bounds")) := by
  refine ⟨rfl, rfl, rfl, rfl, rfl, ?_⟩
  intro r offset _
  by_cases h0 : offset = 0
  · subst h0
    exact ⟨⟨fun _ => Nat.zero_le _, fun _ => ⟨[0], rfl⟩⟩,
      fun hlt => absurd hlt (by omega)⟩
  · have h1 : 1 ≤ offset := by omega
    have heq : fragmentedOffset r offset =
        fragmentedOffsetGo r.childrenGet 0 offset := by
      simp [fragmentedOffset, h0]
    rw [heq]
    exact fragmentedOffsetGo_spec r.childrenGet 0 offset h1

/-- Witness for C3's general clause on the sample fragments (offset 4 is
within bounds, offset 5 is past them). -/
theorem claim_C3_witness :
    (∀ c ∈ sampleFrag.childrenGet, isMarker c = true ∨ isTextRecord c = true) ∧
    (∃ v, fragmentedOffset sampleFrag 4 = .ok v) ∧
    fragmentedOffset sampleFrag 5 = .error "Text offset out of bounds" := by
  have hc : ∀ c ∈ sampleFrag.childrenGet,
      isMarker c = true ∨ isTextRecord c = true := by
    intro c hcm
    simp [sampleFrag, mkText, mkElem, Record.childrenGet] at hcm
    rcases hcm with h | h <;>
      (subst h; right; rfl)
  have h := (claim_C3_fragmentedOffset.2.2.2.2.2 sampleFrag 4 hc).1.mpr
    (by decide)
  have h5 := (claim_C3_fragmentedOffset.2.2.2.2.2 sampleFrag 5 hc).2
    (by decide)
  exact ⟨hc, h, h5⟩

/-! ## Claim C4 -/

theorem stringJoin_singleton (s : String) : String.join [s] = s := by
  simp [String.join]

/-- C4: `defragmentText` concatenates the text of the (non-marker) text
children; when that concatenation equals the text of the stored
`original` back-reference the original record itself is returned
(identity preserved), otherwise a fresh text record carrying the
concatenation; in particular fragments "ab"+"c" against original "abc"
return the original and "ab"+"d" return a fresh text record "abd". -/
theorem claim_C4_defragmentText :
    (∀ (record o : Record),
      (∀ c ∈ record.childrenGet, isTextRecord c = true → isMarker c = false) →
      record.original = some o →
      (o.textGet = catSpec record → defragmentText record = o) ∧
      (o.textGet ≠ catSpec record →
        defragmentText record = .text (catSpec record) false none false none 0)) ∧
    sampleFragABC.original = some (mkText "abc") ∧
    defragmentText sampleFragABC = mkText "abc" ∧
    defragmentText sampleFragABD = mkText "abd" := by
  refine ⟨?_, rfl, rfl, rfl⟩
  intro record o h ho
  have hcat : String.join ((record.childrenGet.filter isTextRecord).map
      Record.textGet) = catSpec record := by
    unfold catSpec
    congr 2
    apply List.filter_congr
    intro c hcm
    cases ht : isTextRecord c
    · simp [ht]
    · simp [ht, h c hcm ht]
  constructor
  · intro heq
    simp only [defragmentText, ho, hcat, heq, beq_self_eq_true, if_true]
  · intro hne
    have hb : (o.textGet == catSpec record) = false := by
      simpa using hne
    simp only [defragmentText, ho, hcat, hb, Bool.false_eq_true, if_false,
      createRecordWith, createRecord, contentsSet]
    norm_num [isTextRecord, Record.name, Record.setText, itemText,
      stringJoin_singleton]

/-- Witness for C4's general clause: the "ab"+"c" fragments satisfy the
hypotheses and defragment to the original record instance. -/
theorem claim_C4_witness :
    (∀ c ∈ sampleFragABC.childrenGet, isTextRecord c = true → isMarker c = false) ∧
    sampleFragABC.original = some (mkText "abc") ∧
    (mkText "abc").textGet = catSpec sampleFragABC ∧
    defragmentText sampleFragABC = mkText "abc" := by
  have hch : ∀ c ∈ sampleFragABC.childrenGet,
      isTextRecord c = true → isMarker c = false := by
    intro c hcm _
    simp [sampleFragABC, mkText, Record.childrenGet] at hcm
    rcases hcm with h | h <;> (subst h; rfl)
  have hcat : (mkText "abc").textGet = catSpec sampleFragABC := by
    simp [mkText, Record.textGet, catSpec, sampleFragABC, Record.childrenGet,
      List.filter, isTextRecord, isMarker, Record.name, Record.isMarkerF,
      String.join]
  exact ⟨hch, rfl,  hcat,
    ((claim_C4_defragmentText.1 sampleFragABC (mkText "abc") hch rfl).1 hcat)⟩

/-! ## Claim C10 -/

/-- C10: `isFragmentedText` tests only the tag name `'Q'`: the wrapper
built by `FragmentedText` is recognized, but so is any element named
`Q`, whatever its `isFragmentedText` flag and `original` back-reference
are (and never a text record); `traverse` routes any such cursor through
`locationInFragment`, treating it as a fragmented-text wrapper. -/
theorem claim_C10_isFragmentedText_by_name :
    (∀ orig : Record, isFragmentedText (fragWrapper orig) = true) ∧
    (∀ (n : String) (cs : List Record) (mf : Bool) (mn : Option String)
      (ff : Bool) (o : Option Record) (i : Nat),
      isFragmentedText (.elem n cs mf mn ff o i) = (n == "Q")) ∧
    (∀ (s : String) (mf : Bool) (mn : Option String) (ff : Bool)
      (o : Option Record) (i : Nat),
      isFragmentedText (.text s mf mn ff o i) = false) ∧
    (∀ (loc : Location) (r : Record) (offset : Nat) (rest : List Nat),
      afterI loc = some (.rcd r) → isMarker r = false → r.name = "Q" →
      traverse loc (offset :: rest) =
        locationInFragment loc offset >>= fun l => traverse l rest) := by
  refine ⟨fun _ => rfl, fun _ _ _ _ _ _ _ => rfl, fun _ _ _ _ _ _ => rfl, ?_⟩
  intro loc r offset rest hAfter hm hname
  have hskipGo : ∀ fuel, skipMarkersGo fuel loc = .ok loc := by
    intro fuel
    cases fuel <;> simp [skipMarkersGo, hAfter, hm]
  have hskip : skipMarkers loc = .ok loc := by
    rw [skipMarkers]
    exact hskipGo _
  have h1 : isTextRecord r = false := by simp [isTextRecord, hname]
  have h2 : isFragmentedText r = true := by simp [isFragmentedText, hname]
  simp only [traverse, hskip, hAfter, h1, h2, Bind.bind, Except.bind]
  simp

/-- Witness for C10's traversal clause at a flagless element named `Q`
sitting at the cursor of a session root. -/
theorem claim_C10_witness :
    afterI (create (mkElem "Q" [mkText "ab"])) =
      some (.rcd (mkElem "Q" [mkText "ab"])) ∧
    isMarker (mkElem "Q" [mkText "ab"]) = false ∧
    (mkElem "Q" [mkText "ab"]).name = "Q" ∧
    traverse (create (mkElem "Q" [mkText "ab"])) [1] =
      locationInFragment (create (mkElem "Q" [mkText "ab"])) 1 >>=
        fun l => traverse l [] :=
  ⟨rfl, rfl, rfl,
    claim_C10_isFragmentedText_by_name.2.2.2 (create (mkElem "Q" [mkText "ab"]))
      (mkElem "Q" [mkText "ab"]) 1 [] rfl rfl rfl⟩

/-! ## Claim C2 -/

/-- C2: a session opened with an empty boundary map leaves the tree
untouched: `zipper(T, {})` yields the initial location of `T` with no
markers, and `root` of that location has `T` itself as its cursor
record. -/
theorem claim_C2_session_roundtrip (fB : Boundary → List Nat)
    (fR : Record → List Nat) (T : Record) (c : Nat) :
    zipper fB fR T [] c = .ok (create T, []) ∧
    afterI (root (create T)) = some (.rcd T) :=
  ⟨rfl, rfl⟩

/-! ## Claim C7 -/

theorem clipCommonRoot_nil_of_diverge :
    ∀ (rootP path : List Nat),
      (∃ i, i < rootP.length ∧ path.get? i ≠ rootP.get? i) →
      clipCommonRoot rootP path = [] := by
  intro rootP
  induction rootP with
  | nil =>
    rintro path ⟨i, hi, _⟩
    simp at hi
  | cons r rs ih =>
    rintro path ⟨i, hi, hne⟩
    cases path with
    | nil => rfl
    | cons p ps =>
      by_cases hpr : p = r
      · subst hpr
        cases i with
        | zero => simp at hne
        | succ j =>
          have := ih ps ⟨j, by simpa using hi, by simpa using hne⟩
          simp [clipCommonRoot, this]
      · simp [clipCommonRoot, hpr]

/-- C7: a boundary whose path diverges from the session root's path
before that path ends is clipped to the empty sequence; `markTree`
records a null marker for it, leaves the tree location unchanged, does
not fail, and `markup` carries on with the remaining boundaries. -/
theorem claim_C7_out_of_scope_boundary (fB : Boundary → List Nat)
    (fR : Record → List Nat) (tree : Location) (element : Record)
    (b : Boundary) (markerName : String) (c : Nat)
    (rest : List (String × Boundary)) :
    afterI tree = some (.rcd element) →
    (∃ i, i < (fR element).length ∧ (fB b).get? i ≠ (fR element).get? i) →
    clipCommonRoot (fR element) (fB b) = [] ∧
    markTree fB fR tree b markerName c = .ok (tree, none, c) ∧
    markup fB fR tree ((markerName, b) :: rest) c =
      (markup fB fR tree rest c).map (fun p => (p.1, (markerName, none) :: p.2)) := by
  intro hAfter hdiv
  have hclip : clipCommonRoot (fR element) (fB b) = [] :=
    clipCommonRoot_nil_of_diverge (fR element) (fB b) hdiv
  have hmt : markTree fB fR tree b markerName c = .ok (tree, none, c) := by
    simp [markTree, hAfter, hclip]
  refine ⟨hclip, hmt, ?_⟩
  rw [markup, hmt]
  cases hr : markup fB fR tree rest c with
  | error e => simp [Bind.bind, Except.bind, Except.map, hr]
  | ok p => simp [Bind.bind, Except.bind, Except.map, hr]

/-- Witness for C7: root path `[0]`, boundary path `[1]` — divergent at
index 0 inside the root path. -/
theorem claim_C7_witness :
    afterI (create (mkElem "P" [])) = some (.rcd (mkElem "P" [])) ∧
    (∃ i, i < ((fun (_ : Record) => [0]) (mkElem "P" [])).length ∧
      ((fun (b : Boundary) => b) [1]).get? i ≠
        ((fun (_ : Record) => [0]) (mkElem "P" [])).get? i) ∧
    markTree (fun b => b) (fun _ => [0]) (create (mkElem "P" [])) [1] "start" 0 =
      .ok (create (mkElem "P" []), none, 0) := by
  refine ⟨rfl, ⟨0, by simp, by simp⟩, ?_⟩
  exact (claim_C7_out_of_scope_boundary (fun b => b) (fun _ => [0])
    (create (mkElem "P" [])) (mkElem "P" []) [1] "start" 0 [] rfl
    ⟨0, by simp, by simp⟩).2.1

/-! ## Claim C1 -/

theorem contentsSet_name (r : Record) (c : List Item) :
    (contentsSet r c).name = r.name := by
  cases r with
  | text s m mn f o i =>
    simp [contentsSet, isTextRecord, Record.name, Record.setText,
      Record.setChildren]
  | elem n cs m mn f o i =>
    by_cases h : isTextRecord (Record.elem n cs m mn f o i)
    · simp [contentsSet, h, Record.setText]
    · simp [contentsSet, h, Record.setChildren, Record.name]

theorem sideRec_roundtrip :
    ∀ (its : List Item), sideRec its → (its.map itemToRecord).map Item.rcd = its := by
  intro its h
  induction its with
  | nil => rfl
  | cons it rest ih =>
    obtain ⟨r, hr⟩ := h it (by simp)
    subst hr
    simp only [List.map_cons, itemToRecord, List.cons.injEq, true_and]
    exact ih (fun x hx => h x (by simp [hx]))

theorem sideRec_append (a b : List Item) (ha : sideRec a) (hb : sideRec b) :
    sideRec (a ++ b) := by
  intro it hit
  rcases List.mem_append.mp hit with h | h
  · exact ha it h
  · exact hb it h

theorem sideRec_suffix (a : List Item) (n : Nat) (ha : sideRec a) :
    sideRec (a.drop n) :=
  fun it hit => ha it (List.mem_of_mem_drop hit)

theorem chainRev_split (fs : List Location) (f : Location)
    (hf : fs.getLast? = some f) (hc : framesChain fs) :
    f.frames = fs.dropLast ∧ framesChain fs.dropLast := by
  obtain ⟨init, rfl⟩ := List.getLast?_eq_some_iff.mp hf
  rw [List.dropLast_concat]
  unfold framesChain at hc
  rw [List.reverse_append, List.reverse_cons, List.reverse_nil,
    List.nil_append, List.singleton_append] at hc
  obtain ⟨h1, h2⟩ := hc
  exact ⟨by simpa using h1, h2⟩

theorem extractL_succ (d : Nat) (items : List Item) :
    extractL (d + 1) items = (extractL d items).bind peelL := by
  induction d generalizing items with
  | zero =>
    show (peelL items).bind (extractL 0) = (some items).bind peelL
    cases hp : peelL items <;> simp [extractL, hp]
  | succ d ih =>
    have h1 : extractL (d + 1 + 1) items = (peelL items).bind (extractL (d + 1)) := rfl
    have h2 : extractL (d + 1) items = (peelL items).bind (extractL d) := rfl
    rw [h1, h2]
    cases hp : peelL items with
    | none => rfl
    | some x => exact ih x

theorem extractR_succ (d : Nat) (items : List Item) :
    extractR (d + 1) items = (extractR d items).bind peelR := by
  induction d generalizing items with
  | zero =>
    show (peelR items).bind (extractR 0) = (some items).bind peelR
    cases hp : peelR items <;> simp [extractR, hp]
  | succ d ih =>
    have h1 : extractR (d + 1 + 1) items = (peelR items).bind (extractR (d + 1)) := rfl
    have h2 : extractR (d + 1) items = (peelR items).bind (extractR d) := rfl
    rw [h1, h2]
    cases hp : peelR items with
    | none => rfl
    | some x => exact ih x

theorem clone_isTextRecord (r : Record) : isTextRecord (clone r) = isTextRecord r := by
  cases r <;> rfl

theorem isTextRecord_contentsSet (r : Record) (c : List Item) :
    isTextRecord (contentsSet r c) = isTextRecord r := by
  simp [isTextRecord, contentsSet_name]

theorem contentsSet_roundtrip_elem (base : Record) (its : List Item)
    (hb : isTextRecord base = false) (hs : sideRec its) :
    asItems (contentsGet (contentsSet base its)) = its := by
  cases base with
  | text s m mn ff o i => simp [isTextRecord, Record.name] at hb
  | elem n cs m mn ff o i =>
    have hset : contentsSet (.elem n cs m mn ff o i) its =
        .elem n (its.map itemToRecord) m mn ff o i := by
      simp [contentsSet, hb, Record.setChildren]
    rw [hset]
    have hb2 : isTextRecord (Record.elem n (its.map itemToRecord) m mn ff o i)
        = false := by
      simpa [isTextRecord, Record.name] using hb
    simp only [contentsGet, hb2, Bool.false_eq_true, if_false, asItems,
      Record.childrenGet]
    exact sideRec_roundtrip its hs

theorem contentsSet_text_fragment (a : String) :
    asItems (contentsGet (contentsSet (createRecord "#text") [Item.str a]))
      = [Item.str a] := by
  simp [createRecord, contentsSet, isTextRecord, Record.name, Record.setText,
    itemText, stringJoin_singleton, contentsGet, asItems, Record.textGet]

theorem mem_of_getLast?_eq (l : List Location) (a : Location)
    (h : l.getLast? = some a) : a ∈ l := by
  obtain ⟨t, rfl⟩ := List.getLast?_eq_some_iff.mp h
  simp

theorem splitGo_extract :
    ∀ (n : Nat) (loc : Location) (untilP : Location → Bool),
      loc.frames.length ≤ n → splitOK loc → loc.frames ≠ [] →
      ∃ d res, splitGo n loc untilP = some res ∧
        extractL d res.lefts = some loc.lefts ∧
        extractR d res.rights = some loc.rights := by
  intro n
  induction n with
  | zero =>
    intro loc untilP hlen _ hne
    exact absurd (List.length_eq_zero.mp (Nat.le_zero.mp hlen)) hne
  | succ m ih =>
    intro loc untilP hlen hOK hne
    obtain ⟨hchain, hOK2, hOK3, hsides⟩ := hOK
    obtain ⟨f, hf⟩ : ∃ f, loc.frames.getLast? = some f := by
      cases h : loc.frames.getLast? with
      | none => exact absurd (List.getLast?_eq_none_iff.mp h) hne
      | some f => exact ⟨f, rfl⟩
    have hfmem : f ∈ loc.frames := mem_of_getLast?_eq _ _ hf
    obtain ⟨hsl, hsr, r0, hAf⟩ := hOK2 f hfmem
    by_cases hstp : (isRoot f || untilP loc) = true
    · refine ⟨0, loc, ?_, rfl, rfl⟩
      simp [splitGo, peek, hf, hstp]
    · have hstpf : (isRoot f || untilP loc) = false := by
        simpa using hstp
      have hroot : isRoot f = false := by
        rcases Bool.or_eq_false_iff.mp hstpf with ⟨h1, _⟩
        exact h1
      -- the popped frame and the reconstructed parent
      have hup : upQ loc = some (Location.mk f.lefts
          (.rcd (contentsSet r0 (loc.lefts ++ loc.rights)) :: f.rights.drop 1)
          loc.frames.dropLast) := by
        simp [upQ, hf, hAf]
      obtain ⟨hchain', hlast⟩ :
          f.frames = loc.frames.dropLast ∧ framesChain loc.frames.dropLast := by
        have := chainRev_split loc.frames f hf hchain
        exact ⟨this.1, this.2⟩
      have hdne : loc.frames.dropLast ≠ [] := by
        intro hempty
        rw [isRoot, hchain', hempty] at hroot
        simp at hroot
      -- the reconstructed parent record
      set recon := contentsSet r0 (loc.lefts ++ loc.rights) with hrecon
      -- the two halves
      set lh := contentsSet (if isTextLocation loc then createRecord "#text"
        else clone recon) loc.lefts with hlh
      set rh := contentsSet (if isTextLocation loc then createRecord "#text"
        else clone recon) loc.rights with hrh
      set loc2 := Location.mk (f.lefts ++ [.rcd lh]) (.rcd rh :: f.rights.drop 1)
        loc.frames.dropLast with hloc2
      have hstep : splitGo (m + 1) loc untilP = splitGo m loc2 untilP := by
        simp only [splitGo, peek, hf, hstpf, Bool.false_eq_true, if_false, hup,
          afterI, Location.rights_mk, List.head?_cons, Location.lefts_mk,
          Location.frames_mk, List.drop_succ_cons, List.drop_zero]
      -- well-formedness of the next level
      have hOKrec : ∀ g ∈ loc.frames.dropLast, frameOK g := fun g hg =>
        hOK2 g (List.dropLast_subset _ hg)
      have hNT : ∀ g ∈ loc.frames.dropLast, frameNonText g := hOK3
      have hsl2 : sideRec (f.lefts ++ [.rcd lh]) :=
        sideRec_append _ _ hsl (fun it hit => by
          simp at hit
          exact ⟨lh, hit⟩)
      have hsr2 : sideRec (.rcd rh :: f.rights.drop 1) := by
        intro it hit
        rcases List.mem_cons.mp hit with h | h
        · exact ⟨rh, h⟩
        · exact sideRec_suffix f.rights 1 hsr it h
      have hOK' : splitOK loc2 := by
        refine ⟨hlast, ?_, ?_, Or.inl ⟨hsl2, hsr2, ?_⟩⟩
        · intro g hg
          rw [hloc2] at hg
          exact hOKrec g (by simpa using hg)
        · intro g hg
          rw [hloc2] at hg
          simp only [Location.frames_mk] at hg
          exact hNT g (List.dropLast_subset _ hg)
        · intro g hg
          rw [hloc2] at hg
          simp only [peek, Location.frames_mk] at hg
          exact hNT g (mem_of_getLast?_eq _ _ hg)
      have hlen' : loc2.frames.length ≤ m := by
        rw [hloc2]
        simp only [Location.frames_mk]
        have h1 : loc.frames.dropLast.length = loc.frames.length - 1 := by
          simp [List.length_dropLast]
        have h2 : 1 ≤ loc.frames.length := by
          cases h : loc.frames with
          | nil => exact absurd h hne
          | cons a t => simp [h]
        omega
      have hdne2 : loc2.frames ≠ [] := by
        rw [hloc2]
        simpa using hdne
      obtain ⟨d, res, hres, hLex, hRex⟩ := ih loc2 untilP hlen' hOK' hdne2
      -- one more peel reaches the original content
      have hpeelL : peelL loc2.lefts = some loc.lefts := by
        rw [hloc2]
        simp only [Location.lefts_mk, peelL, List.getLast?_concat]
        rcases hsides with ⟨hL, hR, hpk⟩ | ⟨a, b, hA, hB⟩
        · have hTL : isTextLocation loc = false := by
            cases hr : loc.rights with
            | nil => simp [isTextLocation, afterI, hr]
            | cons it t =>
              obtain ⟨r, hrr⟩ := hR it (by simp [hr])
              simp [isTextLocation, afterI, hr, hrr]
          have hr0 : isTextRecord r0 = false := hpk f (by simpa [peek] using hf) r0 hAf
          have hrecNT : isTextRecord recon = false := by
            rw [hrecon, isTextRecord_contentsSet]
            exact hr0
          have hclNT : isTextRecord (clone recon) = false := by
            rw [clone_isTextRecord]
            exact hrecNT
          rw [hlh, hTL]
          simp only [Bool.false_eq_true, if_false]
          rw [contentsSet_roundtrip_elem (clone recon) loc.lefts hclNT hL]
        · have hTL : isTextLocation loc = true := by
            simp [isTextLocation, afterI, hB]
          rw [hlh, hTL, if_pos rfl, hA, contentsSet_text_fragment]
      have hpeelR : peelR loc2.rights = some loc.rights := by
        rw [hloc2]
        simp only [Location.rights_mk, peelR, List.head?_cons]
        rcases hsides with ⟨hL, hR, hpk⟩ | ⟨a, b, hA, hB⟩
        · have hTL : isTextLocation loc = false := by
            cases hr : loc.rights with
            | nil => simp [isTextLocation, afterI, hr]
            | cons it t =>
              obtain ⟨r, hrr⟩ := hR it (by simp [hr])
              simp [isTextLocation, afterI, hr, hrr]
          have hr0 : isTextRecord r0 = false := hpk f (by simpa [peek] using hf) r0 hAf
          have hrecNT : isTextRecord recon = false := by
            rw [hrecon, isTextRecord_contentsSet]
            exact hr0
          have hclNT : isTextRecord (clone recon) = false := by
            rw [clone_isTextRecord]
            exact hrecNT
          rw [hrh, hTL]
          simp only [Bool.false_eq_true, if_false]
          rw [contentsSet_roundtrip_elem (clone recon) loc.rights hclNT hR]
        · have hTL : isTextLocation loc = true := by
            simp [isTextLocation, afterI, hB]
          rw [hrh, hTL, if_pos rfl, hB, contentsSet_text_fragment]
      refine ⟨d + 1, res, by rw [hstep]; exact hres, ?_, ?_⟩
      · rw [extractL_succ, hLex, Option.some_bind, hpeelL]
      · rw [extractR_succ, hRex, Option.some_bind, hpeelR]

/-- C1: for every well-formed location with at least one ancestor frame
and every `until` predicate, `split` succeeds and, at the split point —
reached by descending the last-child chain on the left half and the
first-child chain on the right half, one level per split step — the left
content is exactly the original `lefts` and the right content exactly
the original `rights`: no record or text is lost, duplicated or
reordered. -/
theorem claim_C1_split_preserves_content (loc : Location)
    (untilP : Location → Bool) (hOK : splitOK loc) (hne : loc.frames ≠ []) :
    ∃ d res, split loc untilP = some res ∧
      extractL d res.lefts = some loc.lefts ∧
      extractR d res.rights = some loc.rights :=
  splitGo_extract loc.frames.length loc untilP le_rfl hOK hne

/-- Witness for C1: splitting between the two text records of
`<p><b>xy</b></p>`. -/
theorem claim_C1_witness :
    splitOK wLoc ∧ wLoc.frames ≠ [] ∧
    ∃ d res, split wLoc (fun _ => false) = some res ∧
      extractL d res.lefts = some wLoc.lefts ∧
      extractR d res.rights = some wLoc.rights := by
  have hOK : splitOK wLoc := by
    refine ⟨⟨rfl, rfl, trivial⟩, ?_, ?_, Or.inl ⟨?_, ?_, ?_⟩⟩
    · intro f hf
      rw [wLoc] at hf
      simp only [Location.frames_mk, List.mem_cons, List.mem_singleton,
        List.not_mem_nil, or_false] at hf
      rcases hf with rfl | rfl
      · exact ⟨fun it hit => absurd hit (by simp [wF0]),
          fun it hit => ⟨wT, by simpa [wF0] using hit⟩, wT, rfl⟩
      · exact ⟨fun it hit => absurd hit (by simp [wF1]),
          fun it hit => ⟨mkElem "B" [mkText "x", mkText "y"],
            by simpa [wF1] using hit⟩,
          mkElem "B" [mkText "x", mkText "y"], rfl⟩
    · intro f hf
      rw [wLoc] at hf
      simp only [Location.frames_mk] at hf
      have hf0 : f = wF0 := by simpa using hf
      subst hf0
      intro r hr
      rw [wF0] at hr
      simp only [afterI, Location.rights_mk, List.head?_cons,
        Option.some.injEq, Item.rcd.injEq] at hr
      subst hr
      rfl
    · intro it hit
      rw [wLoc] at hit
      simp only [Location.lefts_mk, List.mem_singleton] at hit
      exact ⟨mkText "x", hit⟩
    · intro it hit
      rw [wLoc] at hit
      simp only [Location.rights_mk, List.mem_singleton] at hit
      exact ⟨mkText "y", hit⟩
    · intro f hf
      rw [wLoc] at hf
      simp only [peek, Location.frames_mk] at hf
      have hf1 : wF1 = f := by simpa using hf
      subst hf1
      intro r hr
      rw [wF1] at hr
      simp only [afterI, Location.rights_mk, List.head?_cons,
        Option.some.injEq, Item.rcd.injEq] at hr
      subst hr
      rfl
  exact ⟨hOK, by rw [wLoc]; simp,
    claim_C1_split_preserves_content wLoc (fun _ => false) hOK
      (by rw [wLoc]; simp)⟩

/-! ## Walk-loop infrastructure -/

theorem rsizeR_pos (r : Record) : 1 ≤ rsizeR r := by
  cases r with
  | text => rw [rsizeR]
  | elem n cs m mn ff o i => rw [rsizeR]; omega

theorem isize_pos (it : Item) : 1 ≤ isize it := by
  cases it with
  | rcd r => rw [isize]; exact rsizeR_pos r
  | str s => rw [isize]

theorem ilistSize_cons (it : Item) (rest : List Item) :
    ilistSize (it :: rest) = isize it + ilistSize rest := by
  simp [ilistSize]

theorem ilistSize_map_rcd :
    ∀ cs : List Record, ilistSize (cs.map Item.rcd) = rsizeL cs := by
  intro cs
  induction cs with
  | nil => rw [rsizeL]; rfl
  | cons r rest ih =>
    rw [rsizeL, List.map_cons, ilistSize_cons, ih, isize]

theorem upQ_eq (loc : Location) (f : Location) (r : Record)
    (hf : loc.frames.getLast? = some f) (hr : afterI f = some (.rcd r)) :
    upQ loc = some (.mk f.lefts
      (.rcd (contentsSet r (loc.lefts ++ loc.rights)) :: f.rights.drop 1)
      loc.frames.dropLast) := by
  simp [upQ, hf, hr]

theorem replace_jump_shape (l : Location) (items : List Item) :
    jump (replace l items) items.length =
      .mk (l.lefts ++ items) (l.rights.drop 1) l.frames := by
  have hrepl : replace l items =
      .mk l.lefts (items ++ l.rights.drop 1) l.frames := by
    simp [replace, splice, jsSlice_one_none]
  rw [hrepl]
  cases items with
  | nil => simp [jump]
  | cons x xs =>
    have hne : ((x :: xs).length : Int) ≠ 0 := by
      simp only [List.length_cons]
      omega
    rw [jump, if_neg hne]
    simp only [next, Location.lefts_mk, Location.rights_mk, Location.frames_mk]
    rw [jsSlice_zero_some_ofNat, jsSlice_ofNat_none,
      List.take_left' rfl, List.drop_left' rfl]

theorem frames_split_of_getLast (fs : List Location) (f : Location)
    (hf : fs.getLast? = some f) : fs = fs.dropLast ++ [f] := by
  obtain ⟨t, rfl⟩ := List.getLast?_eq_some_iff.mp hf
  rw [List.dropLast_concat]

theorem walkMeasure_pop (loc : Location) (f : Location) (X : List Item)
    (hEnd : isAtEnd loc = true) (hf : loc.frames.getLast? = some f) :
    walkMeasure (.mk X (f.rights.drop 1) loc.frames.dropLast) + 1 =
      walkMeasure loc := by
  have hsplit := frames_split_of_getLast loc.frames f hf
  rw [walkMeasure, walkMeasure]
  rw [isAtEnd, List.isEmpty_iff] at hEnd
  rw [hEnd]
  conv_rhs => rw [hsplit]
  simp only [Location.rights_mk, Location.frames_mk, List.map_append,
    List.map_cons, List.map_nil, List.sum_append, List.sum_cons, List.sum_nil,
    frameWeight, ilistSize, List.map_nil]
  simp [ilistSize]
  omega

theorem walkMeasure_mk_rest (loc : Location) (X : List Item) (it : Item)
    (rest : List Item) (hr : loc.rights = it :: rest) :
    walkMeasure (.mk X rest loc.frames) + 2 * isize it = walkMeasure loc := by
  rw [walkMeasure, walkMeasure, hr, ilistSize_cons]
  simp only [Location.rights_mk, Location.frames_mk]
  omega

theorem next_one_rights (loc : Location) :
    next loc 1 = .mk (loc.lefts ++ jsSlice loc.rights 0 (some 1))
      (loc.rights.drop 1) loc.frames := by
  simp [next, jsSlice_one_none]

theorem contentsGet_set_roundtrip (r : Record)
    (hnt : isTextRecord r = false) :
    contentsSet r (asItems (contentsGet r)) = r := by
  cases r with
  | text s m mn ff o i => simp [isTextRecord, Record.name] at hnt
  | elem n cs m mn ff o i =>
    simp only [contentsGet, hnt, Bool.false_eq_true, if_false, asItems,
      Record.childrenGet, contentsSet, Record.setChildren, List.map_map]
    congr 1
    rw [show (itemToRecord ∘ Item.rcd) = id from rfl]
    exact List.map_id cs

theorem contentsSet_children_map (r : Record)
    (hNT : isTextRecord r = false) :
    contentsSet r (r.childrenGet.map Item.rcd) = r := by
  have h := contentsGet_set_roundtrip r hNT
  simpa [contentsGet, hNT, asItems] using h

theorem textFrags_some :
    ∀ (its : List Item), sideRec its → ∃ rs, textFragsOfItems its = some rs := by
  intro its
  induction its with
  | nil => exact fun _ => ⟨[], rfl⟩
  | cons it rest ih =>
    intro hs
    obtain ⟨r, rfl⟩ := hs it (by simp)
    obtain ⟨l, hl⟩ := ih (fun x hx => hs x (by simp [hx]))
    rw [textFragsOfItems, hl]
    exact ⟨_, rfl⟩

theorem offsetOfVoid_some (loc parentLoc : Location) (hs : sideRec loc.lefts) :
    ∃ o, offsetOfVoid loc parentLoc = some o := by
  rw [offsetOfVoid]
  obtain ⟨rs, hrs⟩ := textFrags_some loc.lefts hs
  by_cases hfr : (match afterI parentLoc with
    | some (.rcd p) => isFragmentedText p
    | _ => false) = true
  · simp only [hfr, if_true, hrs, Option.map_some]
    exact ⟨_, rfl⟩
  · simp only [Bool.not_eq_true] at hfr
    simp only [hfr, Bool.false_eq_true, if_false]
    exact ⟨_, rfl⟩

theorem preVisit_void (r : Record) (hv : isVoidRec r = true) :
    preVisit r = [r] := by
  cases r with
  | text => rw [preVisit]
  | elem n cs m mn ff o i => rw [preVisit, hv]; simp

theorem preVisit_nonvoid (n : String) (cs : List Record) (m : Bool)
    (mn : Option String) (ff : Bool) (o : Option Record) (i : Nat)
    (hv : isVoidRec (.elem n cs m mn ff o i) = false) :
    preVisit (.elem n cs m mn ff o i) =
      Record.elem n cs m mn ff o i :: preVisitL cs := by
  rw [preVisit, hv]
  simp

theorem preVisitItems_map_rcd :
    ∀ cs : List Record, preVisitItems (cs.map Item.rcd) = preVisitL cs := by
  intro cs
  induction cs with
  | nil => rfl
  | cons r rest ih => rw [List.map_cons, preVisitItems, ih, preVisitL]

theorem visitFrames_append (fs : List Location) (f : Location) :
    visitFrames (fs ++ [f]) =
      preVisitItems (f.rights.drop 1) ++ visitFrames fs := by
  induction fs with
  | nil => simp [visitFrames]
  | cons g rest ih =>
    rw [List.cons_append, visitFrames, ih, visitFrames]
    simp [List.append_assoc]

theorem upWhileEnd_step (loc : Location) (k : Nat) (l : Location)
    (hroot : isRoot loc = false) (hup : upQ loc = some l)
    (hne : l.rights ≠ []) :
    upWhileEnd (k + 1) loc = some (.inr l) := by
  rw [upWhileEnd, hroot]
  simp [hup, isAtEnd, List.isEmpty_iff, hne]

theorem append_cons_eq_singleton (a : List Item) (x y : Item) (b : List Item)
    (h : a ++ x :: b = [y]) : a = [] ∧ x = y ∧ b = [] := by
  cases a with
  | nil => simpa using h
  | cons z t =>
    rw [List.cons_append] at h
    have := congrArg List.length h
    simp at this

/-! ## Claim C5 -/

theorem rights_of_afterI (loc : Location) (x : Item)
    (h : afterI loc = some x) : ∃ rest, loc.rights = x :: rest := by
  cases hr : loc.rights with
  | nil =>
    rw [afterI, hr] at h
    simp at h
  | cons a t =>
    rw [afterI, hr] at h
    simp at h
    exact ⟨t, by rw [h]⟩

theorem down_eq (loc : Location) (r : Record)
    (hAfter : afterI loc = some (.rcd r)) (hNT : isTextRecord r = false) :
    down loc = .mk [] (r.childrenGet.map Item.rcd) (loc.frames ++ [loc]) := by
  simp [down, hAfter, contentsGet, hNT, asItems]

theorem walkMeasure_down (loc : Location) (r : Record)
    (hAfter : afterI loc = some (.rcd r)) (hNT : isTextRecord r = false) :
    walkMeasure (down loc) + 1 = walkMeasure loc := by
  obtain ⟨rest, hr⟩ := rights_of_afterI loc (.rcd r) hAfter
  rw [down_eq loc r hAfter hNT, walkMeasure, walkMeasure]
  simp only [Location.rights_mk, Location.frames_mk, List.map_append,
    List.map_cons, List.map_nil, List.sum_append, List.sum_cons, List.sum_nil]
  rw [ilistSize_map_rcd, hr, ilistSize_cons, isize]
  rw [show frameWeight loc = 2 * ilistSize (loc.rights.drop 1) + 1 from rfl,
    hr]
  simp only [List.drop_succ_cons, List.drop_zero]
  cases r with
  | text s m mn ff o i => simp [isTextRecord, Record.name] at hNT
  | elem n cs m mn ff o i =>
    rw [Record.childrenGet, rsizeR]
    omega

theorem replace_jump_one (l : Location) (x : Item) :
    jump (replace l [x]) 1 = .mk (l.lefts ++ [x]) (l.rights.drop 1) l.frames := by
  have h := replace_jump_shape l [x]
  simpa using h

theorem reassembleRev_concat (fs : List Location) (f : Location) (r : Record)
    (content : List Item) (hAf : afterI f = some (.rcd r)) :
    reassembleRev ((fs ++ [f]).reverse) content =
      reassembleRev fs.reverse
        (f.lefts ++ .rcd (contentsSet r content) :: f.rights.drop 1) := by
  rw [List.reverse_append]
  simp [reassembleRev, hAf]

theorem wpoLoopF_id (T : Record) (hT : isVoidRec T = false) :
    ∀ (fuel : Nat) (loc : Location) (trail : List Nat),
      walkMeasure loc < fuel → wpoInv T loc →
      reassemble loc = some [.rcd T] →
      wpoLoopF (fun r _ => [r]) fuel loc trail = some (.mk [] [.rcd T] []) := by
  intro fuel
  induction fuel with
  | zero =>
    intro loc trail hfuel _ _
    omega
  | succ m ih =>
    intro loc trail hfuel hInv hre
    obtain ⟨hsl, hsr, hfr, hbot⟩ := hInv
    by_cases hEnd : isAtEnd loc = true
    · -- ascend-and-rebuild branch
      have hrights : loc.rights = [] := by
        rwa [isAtEnd, List.isEmpty_iff] at hEnd
      have hfne : loc.frames ≠ [] := by
        intro h0
        have hloc := hbot h0
        rw [hloc, create] at hrights
        simp at hrights
      obtain ⟨f, hf⟩ : ∃ f, loc.frames.getLast? = some f := by
        cases h : loc.frames.getLast? with
        | none => exact absurd (List.getLast?_eq_none_iff.mp h) hfne
        | some f => exact ⟨f, rfl⟩
      obtain ⟨hfl, hfrr, r0, hAf⟩ := hfr f (mem_of_getLast?_eq _ _ hf)
      have hup := upQ_eq loc f r0 hf hAf
      have hra : reassemble loc = reassembleRev loc.frames.dropLast.reverse
          (f.lefts ++ .rcd (contentsSet r0 (loc.lefts ++ loc.rights)) ::
            f.rights.drop 1) := by
        rw [reassemble]
        conv_lhs => rw [frames_split_of_getLast loc.frames f hf]
        exact reassembleRev_concat _ f r0 _ hAf
      by_cases hR : loc.frames.dropLast = []
      · -- the rebuilt node is the root: the walk stops here
        have hroot2 : isRoot (Location.mk f.lefts
            (.rcd (contentsSet r0 (loc.lefts ++ loc.rights)) ::
              f.rights.drop 1) loc.frames.dropLast) = true := by
          simp [isRoot, hR]
        rw [wpoLoopF]
        simp only [hEnd, if_true, hup, hroot2]
        rw [hra, hR] at hre
        simp only [List.reverse_nil, reassembleRev] at hre
        obtain ⟨h1, h2, h3⟩ :=
          append_cons_eq_singleton _ _ _ _ (Option.some.inj hre)
        rw [h1, h3, hR, h2]
      · -- rebuild, splice the parent back, move past it, continue
        have hroot2 : isRoot (Location.mk f.lefts
            (.rcd (contentsSet r0 (loc.lefts ++ loc.rights)) ::
              f.rights.drop 1) loc.frames.dropLast) = false := by
          simpa [isRoot, List.isEmpty_iff] using hR
        rw [wpoLoopF]
        simp only [hEnd, if_true, hup, hroot2, Bool.false_eq_true, if_false,
          afterI, Location.rights_mk, List.head?_cons, List.map_cons,
          List.map_nil, List.length_cons, List.length_nil, Nat.zero_add,
          Nat.cast_one]
        rw [replace_jump_one]
        simp only [Location.lefts_mk, Location.rights_mk, Location.frames_mk,
          List.drop_succ_cons, List.drop_zero]
        have hmeas := walkMeasure_pop loc f
          (f.lefts ++ [Item.rcd (contentsSet r0 (loc.lefts ++ loc.rights))])
          hEnd hf
        apply ih
        · omega
        · refine ⟨sideRec_append _ _ hfl (fun it hit => ⟨_, by simpa using hit⟩),
            sideRec_suffix f.rights 1 hfrr,
            fun g hg => hfr g (List.dropLast_subset _ hg),
            fun h0 => absurd h0 hR⟩
        · rw [reassemble]
          simp only [Location.lefts_mk, Location.rights_mk, Location.frames_mk]
          rw [show f.lefts ++ [Item.rcd (contentsSet r0
            (loc.lefts ++ loc.rights))] ++ f.rights.drop 1 =
            f.lefts ++ .rcd (contentsSet r0 (loc.lefts ++ loc.rights)) ::
              f.rights.drop 1 by simp]
          rw [← hra]
          exact hre
    · -- cursor on a node
      have hEnd' : isAtEnd loc = false := by simpa using hEnd
      have hrne : loc.rights ≠ [] := by
        intro h0
        rw [isAtEnd, h0] at hEnd'
        simp at hEnd'
      obtain ⟨it, hit⟩ : ∃ it, afterI loc = some it := by
        cases h : loc.rights with
        | nil => exact absurd h hrne
        | cons a t => exact ⟨a, by rw [afterI, h]; rfl⟩
      obtain ⟨r, rfl⟩ := hsr it (by
        obtain ⟨rest, hr⟩ := rights_of_afterI loc it hit
        rw [hr]
        simp)
      obtain ⟨rest, hr⟩ := rights_of_afterI loc (.rcd r) hit
      by_cases hV : isVoidRec r = true
      · -- void node: replace it by itself and step over it
        have hfne : loc.frames ≠ [] := by
          intro h0
          have hloc := hbot h0
          rw [hloc, create, afterI] at hit
          simp at hit
          rw [← hit] at hV
          rw [hV] at hT
          simp at hT
        obtain ⟨f, hf⟩ : ∃ f, loc.frames.getLast? = some f := by
          cases h : loc.frames.getLast? with
          | none => exact absurd (List.getLast?_eq_none_iff.mp h) hfne
          | some f => exact ⟨f, rfl⟩
        obtain ⟨hfl, hfrr, r0, hAf⟩ := hfr f (mem_of_getLast?_eq _ _ hf)
        have hup := upQ_eq loc f r0 hf hAf
        obtain ⟨offs, hoffs⟩ := offsetOfVoid_some loc
          (Location.mk f.lefts
            (.rcd (contentsSet r0 (loc.lefts ++ loc.rights)) ::
              f.rights.drop 1) loc.frames.dropLast) hsl
        rw [wpoLoopF]
        simp only [hEnd', Bool.false_eq_true, if_false, hit, hV, if_true,
          hup, hoffs, List.map_cons, List.map_nil, List.length_cons,
          List.length_nil, Nat.zero_add, Nat.cast_one]
        rw [replace_jump_one]
        have hmeas := walkMeasure_mk_rest loc
          (loc.lefts ++ [Item.rcd r]) (.rcd r) rest hr
        have hpos := isize_pos (Item.rcd r)
        apply ih
        · rw [hr]
          simp only [List.drop_succ_cons, List.drop_zero]
          omega
        · refine ⟨sideRec_append _ _ hsl (fun x hx => ⟨r, by simpa using hx⟩),
            sideRec_suffix loc.rights 1 hsr, hfr,
            fun h0 => absurd h0 hfne⟩
        · rw [reassemble]
          simp only [Location.lefts_mk, Location.rights_mk, Location.frames_mk]
          rw [← hre, reassemble]
          congr 1
          rw [hr]
          simp
      · -- descend
        have hV' : isVoidRec r = false := by simpa using hV
        have hNT : isTextRecord r = false := by
          rw [isVoidRec] at hV'
          rcases Bool.or_eq_false_iff.mp hV' with ⟨h1, _⟩
          rcases Bool.or_eq_false_iff.mp h1 with ⟨h2, _⟩
          exact h2
        rw [wpoLoopF]
        simp only [hEnd', Bool.false_eq_true, if_false, hit, hV', if_false]
        have hdeq := down_eq loc r hit hNT
        have hmeas := walkMeasure_down loc r hit hNT
        apply ih
        · omega
        · rw [hdeq]
          refine ⟨fun x hx => absurd hx (by simp), ?_, ?_, by simp⟩
          · intro x hx
            simp only [Location.rights_mk] at hx
            obtain ⟨c, _, rfl⟩ := List.mem_map.mp hx
            exact ⟨c, rfl⟩
          · intro g hg
            simp only [Location.frames_mk] at hg
            rcases List.mem_append.mp hg with h | h
            · exact hfr g h
            · rw [List.mem_singleton] at h
              subst h
              exact ⟨hsl, hsr, r, hit⟩
        · rw [hdeq, reassemble]
          simp only [Location.lefts_mk, Location.rights_mk, Location.frames_mk,
            List.nil_append]
          rw [reassembleRev_concat loc.frames loc r _ hit]
          rw [contentsSet_children_map r hNT]
          rw [← hre, reassemble]
          congr 1
          rw [hr]
          simp

/-- C5 counterexample: on the tree consisting of a single text record the
identity walk crashes (`up` is applied at the session root while
computing the void offset), so no resulting tree at all is produced —
the claim's "for every tree" fails. -/
theorem claim_C5_counterexample :
    walkPostOrder (create (mkText "a")) (fun r _ => [r]) = none := by
  rw [walkPostOrder, show root (create (mkText "a")) = create (mkText "a")
    from rfl, wpoLoopF]
  simp [isAtEnd, create, afterI, isVoidRec, isTextRecord, Record.name,
    mkText, upQ, peek]

/-- C5 (amended): for every tree whose root record is a non-void element
(the code crashes on text, marker, or void-element roots), running
`walkPostOrder` with the mutate function that returns its input as a
singleton list yields the session-root location whose cursor record is
structurally equal to the input tree. -/
theorem claim_C5_postorder_identity (T : Record) (hT : isVoidRec T = false) :
    walkPostOrder (create T) (fun r _ => [r]) =
      some (.mk [] [.rcd T] []) := by
  rw [walkPostOrder, show root (create T) = create T from rfl]
  apply wpoLoopF_id T hT
  · omega
  · refine ⟨fun x hx => absurd hx (by simp [create]), fun x hx => ?_,
      fun g hg => absurd hg (by simp [create]), fun _ => rfl⟩
    rw [create] at hx
    simp at hx
    exact ⟨T, hx⟩
  · rfl

/-- Witness for C5's amended statement on the tree `<p>a</p>`. -/
theorem claim_C5_witness :
    isVoidRec (mkElem "P" [mkText "a"]) = false ∧
    walkPostOrder (create (mkElem "P" [mkText "a"])) (fun r _ => [r]) =
      some (.mk [] [.rcd (mkElem "P" [mkText "a"])] []) :=
  ⟨rfl, claim_C5_postorder_identity (mkElem "P" [mkText "a"]) rfl⟩

/-! ## Claim C6 -/

theorem beqR_refl (a : Record) : beqR a a = true := (beqR_iff a a).mpr rfl

theorem preVisit_head (r : Record) : ∃ tl, preVisit r = r :: tl := by
  cases r with
  | text s m mn ff o i => exact ⟨[], by rw [preVisit]⟩
  | elem n cs m mn ff o i =>
    exact ⟨_, by rw [preVisit]⟩

theorem preVisit_mem_occurs_aux (n : Nat) :
    (∀ T : Record, bsize T ≤ n → ∀ r ∈ preVisit T, occursB r T = true) ∧
    (∀ cs : List Record, bsizeL cs ≤ n → ∀ r ∈ preVisitL cs,
      occursBL r cs = true) := by
  induction n with
  | zero =>
    refine ⟨fun T hT => absurd hT (by have := bsize_pos T; omega), ?_⟩
    intro cs hcs r hr
    cases cs with
    | nil => simp [preVisitL] at hr
    | cons c rest =>
      exact absurd hcs (by have := bsize_pos c; simp only [bsizeL]; omega)
  | succ n ih =>
    obtain ⟨ihT, ihL⟩ := ih
    constructor
    · intro T hT r hr
      cases T with
      | text s m mn ff o i =>
        rw [preVisit] at hr
        rw [List.mem_singleton] at hr
        subst hr
        rw [occursB]
        exact beqR_refl _
      | elem nm cs m mn ff o i =>
        rw [preVisit] at hr
        rcases List.mem_cons.mp hr with rfl | hr2
        · rw [occursB, beqR_refl]
          rfl
        · by_cases hv : isVoidRec (.elem nm cs m mn ff o i) = true
          · rw [hv] at hr2
            simp at hr2
          · rw [if_neg hv] at hr2
            have hcs : bsizeL cs ≤ n := by
              rw [bsize] at hT
              omega
            rw [occursB, ihL cs hcs r hr2]
            simp
    · intro cs hcs r hr
      cases cs with
      | nil => simp [preVisitL] at hr
      | cons c rest =>
        rw [preVisitL] at hr
        have hc : bsize c ≤ n := by
          rw [bsizeL] at hcs
          omega
        have hrest : bsizeL rest ≤ n := by
          rw [bsizeL] at hcs
          omega
        rcases List.mem_append.mp hr with h | h
        · rw [occursBL, ihT c hc r h]
          simp
        · rw [occursBL, ihL rest hrest r h]
          simp

theorem preVisit_mem_occurs (T r : Record) (h : r ∈ preVisit T) :
    occursB r T = true :=
  (preVisit_mem_occurs_aux (bsize T)).1 T le_rfl r h

theorem dropLast_head? (fs : List Location) (g : Location)
    (h : fs.dropLast.head? = some g) : fs.head? = some g := by
  cases fs with
  | nil => simp at h
  | cons a t =>
    cases t with
    | nil => simp at h
    | cons b t2 =>
      rw [List.dropLast_cons₂] at h
      simp at h ⊢
      simpa using h

theorem wpowLoopF_run (T mrk : Record) :
    ∀ (fuel : Nat) (loc : Location),
      walkMeasure loc < fuel → wpowInv T loc →
      (match (visitList loc).find? (fun r => isMarker r && beqR r mrk) with
       | none => ∃ l, wpowLoopF (markerPred mrk) fuel loc = some l ∧
           isRoot l = true
       | some r => ∃ l, wpowLoopF (markerPred mrk) fuel loc = some l ∧
           afterI l = some (.rcd r) ∧ (isRoot l = true → l = create T)) := by
  intro fuel
  induction fuel with
  | zero =>
    intro loc hfuel _
    omega
  | succ m ih =>
    intro loc hfuel hInv
    obtain ⟨hsr, hfrs, hbot, hhead⟩ := hInv
    by_cases hEnd : isAtEnd loc = true
    · -- rights exhausted: ascend (or stop at the root)
      have hrights : loc.rights = [] := by
        rwa [isAtEnd, List.isEmpty_iff] at hEnd
      have hA : afterI loc = none := by
        rw [afterI, hrights]
        rfl
      have hMP : markerPred mrk loc = true := by
        simp [markerPred, hA]
      by_cases hRoot : isRoot loc = true
      · have hframes : loc.frames = [] := by
          rwa [isRoot, List.isEmpty_iff] at hRoot
        have hVL : visitList loc = [] := by
          rw [visitList, hrights, hframes]
          rfl
        rw [hVL]
        simp only [List.find?_nil]
        refine ⟨loc, ?_, hRoot⟩
        rw [wpowLoopF, hMP, if_pos rfl, if_pos hEnd]
        have hUW : upWhileEnd (loc.frames.length + 1) loc = some (.inl loc) := by
          rw [upWhileEnd, hRoot]
          simp
        rw [hUW]
      · have hfne : loc.frames ≠ [] := by
          intro h0
          rw [isRoot, h0] at hRoot
          simp at hRoot
        obtain ⟨f, hf⟩ : ∃ f, loc.frames.getLast? = some f := by
          cases h : loc.frames.getLast? with
          | none => exact absurd (List.getLast?_eq_none_iff.mp h) hfne
          | some f => exact ⟨f, rfl⟩
        obtain ⟨hfdr, r0, hAf⟩ := hfrs f (mem_of_getLast?_eq _ _ hf)
        have hup := upQ_eq loc f r0 hf hAf
        have hRootF : isRoot loc = false := by simpa using hRoot
        have hUW := upWhileEnd_step loc loc.frames.length _ hRootF hup (by simp)
        have hn1 : next (Location.mk f.lefts
            (.rcd (contentsSet r0 (loc.lefts ++ loc.rights)) ::
              f.rights.drop 1) loc.frames.dropLast) 1 =
            Location.mk (f.lefts ++ jsSlice
              (.rcd (contentsSet r0 (loc.lefts ++ loc.rights)) ::
                f.rights.drop 1) 0 (some 1)) (f.rights.drop 1)
              loc.frames.dropLast := by
          rw [next_one_rights]
          simp
        have hstep : wpowLoopF (markerPred mrk) (m + 1) loc =
            wpowLoopF (markerPred mrk) m
              (next (Location.mk f.lefts
                (.rcd (contentsSet r0 (loc.lefts ++ loc.rights)) ::
                  f.rights.drop 1) loc.frames.dropLast) 1) := by
          rw [wpowLoopF, hMP, if_pos rfl, if_pos hEnd, hUW]
        have hmeas := walkMeasure_pop loc f
          (f.lefts ++ jsSlice (.rcd (contentsSet r0 (loc.lefts ++ loc.rights))
            :: f.rights.drop 1) 0 (some 1)) hEnd hf
        have hVL : visitList (next (Location.mk f.lefts
            (.rcd (contentsSet r0 (loc.lefts ++ loc.rights)) ::
              f.rights.drop 1) loc.frames.dropLast) 1) = visitList loc := by
          rw [hn1, visitList, visitList, hrights]
          simp only [Location.rights_mk, Location.frames_mk]
          conv_rhs => rw [frames_split_of_getLast loc.frames f hf]
          rw [visitFrames_append]
          rfl
        have hInv2 : wpowInv T (next (Location.mk f.lefts
            (.rcd (contentsSet r0 (loc.lefts ++ loc.rights)) ::
              f.rights.drop 1) loc.frames.dropLast) 1) := by
          rw [hn1]
          refine ⟨hfdr, fun g hg => hfrs g (List.dropLast_subset _ hg), ?_, ?_⟩
          · intro h0
            simp only [Location.frames_mk] at h0
            right
            have hsingle : loc.frames = [f] := by
              conv_lhs => rw [frames_split_of_getLast loc.frames f hf]
              rw [h0]
              rfl
            simp only [Location.rights_mk]
            exact hhead f (by rw [hsingle]; rfl)
          · intro g hg
            simp only [Location.frames_mk] at hg
            exact hhead g (dropLast_head? _ _ hg)
        rw [← hVL, hstep]
        apply ih
        · rw [hn1]
          omega
        · exact hInv2
    · -- cursor on a node
      have hEnd' : isAtEnd loc = false := by simpa using hEnd
      have hrne : loc.rights ≠ [] := by
        intro h0
        rw [isAtEnd, h0] at hEnd'
        simp at hEnd'
      obtain ⟨it, hit⟩ : ∃ it, afterI loc = some it := by
        cases h : loc.rights with
        | nil => exact absurd h hrne
        | cons a t => exact ⟨a, by rw [afterI, h]; rfl⟩
      obtain ⟨r, rfl⟩ := hsr it (by
        obtain ⟨rest, hr⟩ := rights_of_afterI loc it hit
        rw [hr]
        simp)
      obtain ⟨rest, hr⟩ := rights_of_afterI loc (.rcd r) hit
      by_cases hpr : (isMarker r && beqR r mrk) = true
      · -- the walk stops here: the cursor is the marker
        have hMP : markerPred mrk loc = false := by
          simp [markerPred, hit, hpr]
        have hres : wpowLoopF (markerPred mrk) (m + 1) loc = some loc := by
          rw [wpowLoopF, hMP]
          simp
        obtain ⟨tl, hput⟩ := preVisit_head r
        have hVL : visitList loc = r ::
            (tl ++ (preVisitItems rest ++ visitFrames loc.frames)) := by
          rw [visitList, hr, preVisitItems, hput]
          simp [List.append_assoc]
        have hfind : List.find? (fun r => isMarker r && beqR r mrk)
            (r :: (tl ++ (preVisitItems rest ++ visitFrames loc.frames))) =
            some r := by
          simp [List.find?, hpr]
        rw [hVL, hfind]
        refine ⟨loc, hres, hit, ?_⟩
        intro hRoot
        have hframes : loc.frames = [] := by
          rwa [isRoot, List.isEmpty_iff] at hRoot
        rcases hbot hframes with h | h
        · exact h
        · rw [h] at hr
          simp at hr
      · -- keep walking
        have hprf : (isMarker r && beqR r mrk) = false := by simpa using hpr
        have hMP : markerPred mrk loc = true := by
          simp [markerPred, hit, hprf]
        by_cases hV : isVoidRec r = true
        · -- void node: step over it
          have hstep : wpowLoopF (markerPred mrk) (m + 1) loc =
              wpowLoopF (markerPred mrk) m (next loc 1) := by
            rw [wpowLoopF, hMP, if_pos rfl, if_neg (by simp [hEnd']), hit]
            simp [hV]
          have hn1 : next loc 1 = Location.mk
              (loc.lefts ++ jsSlice loc.rights 0 (some 1)) rest loc.frames := by
            rw [next_one_rights, hr]
            simp
          have hmeas := walkMeasure_mk_rest loc
            (loc.lefts ++ jsSlice loc.rights 0 (some 1)) (.rcd r) rest hr
          have hpos := isize_pos (Item.rcd r)
          have hVL : visitList loc = r :: visitList (next loc 1) := by
            rw [hn1, visitList, visitList, hr, preVisitItems,
              preVisit_void r hV]
            simp only [Location.rights_mk, Location.frames_mk,
              List.singleton_append, List.cons_append, List.nil_append]
          have hfind : List.find? (fun r => isMarker r && beqR r mrk)
              (r :: visitList (next loc 1)) =
              List.find? (fun r => isMarker r && beqR r mrk)
                (visitList (next loc 1)) := by
            simp [List.find?, hprf]
          rw [hVL, hfind, hstep]
          apply ih
          · rw [hn1]
            omega
          · rw [hn1]
            refine ⟨?_, hfrs, ?_, ?_⟩
            · have h2 := sideRec_suffix loc.rights 1 hsr
              rw [hr] at h2
              simpa using h2
            · intro h0
              simp only [Location.frames_mk] at h0
              rcases hbot h0 with hc | hc
              · right
                rw [hc, create] at hr
                simp only [Location.rights_mk, List.cons.injEq] at hr
                simp [hr.2]
              · rw [hc] at hr
                simp at hr
            · intro g hg
              simp only [Location.frames_mk] at hg
              exact hhead g hg
        · -- descend into the children
          have hV2 : isVoidRec r = false := by simpa using hV
          have hNT : isTextRecord r = false := by
            rw [isVoidRec] at hV2
            rcases Bool.or_eq_false_iff.mp hV2 with ⟨h1, _⟩
            exact (Bool.or_eq_false_iff.mp h1).1
          have hstep : wpowLoopF (markerPred mrk) (m + 1) loc =
              wpowLoopF (markerPred mrk) m (down loc) := by
            rw [wpowLoopF, hMP, if_pos rfl, if_neg (by simp [hEnd']), hit]
            simp [hV2]
          have hdeq := down_eq loc r hit hNT
          have hmeas := walkMeasure_down loc r hit hNT
          obtain ⟨nm, cs, mf, mn, ff, o, i, rfl⟩ :
              ∃ nm cs mf mn ff o i, r = Record.elem nm cs mf mn ff o i := by
            cases r with
            | text s mf mn ff o i => simp [isTextRecord, Record.name] at hNT
            | elem nm cs mf mn ff o i => exact ⟨nm, cs, mf, mn, ff, o, i, rfl⟩
          have hVL : visitList loc =
              Record.elem nm cs mf mn ff o i :: visitList (down loc) := by
            rw [hdeq, visitList, visitList, hr, preVisitItems,
              preVisit_nonvoid nm cs mf mn ff o i hV2]
            simp only [Location.rights_mk, Location.frames_mk]
            rw [visitFrames_append,
              show (Record.elem nm cs mf mn ff o i).childrenGet = cs from rfl,
              preVisitItems_map_rcd, hr]
            simp [List.append_assoc]
          have hfind : List.find? (fun r => isMarker r && beqR r mrk)
              (Record.elem nm cs mf mn ff o i :: visitList (down loc)) =
              List.find? (fun r => isMarker r && beqR r mrk)
                (visitList (down loc)) := by
            simp [List.find?, hprf]
          rw [hVL, hfind, hstep]
          apply ih
          · omega
          · rw [hdeq]
            refine ⟨?_, ?_, by simp, ?_⟩
            · intro x hx
              simp only [Location.rights_mk] at hx
              obtain ⟨c, _, rfl⟩ := List.mem_map.mp hx
              exact ⟨c, rfl⟩
            · intro g hg
              simp only [Location.frames_mk] at hg
              rcases List.mem_append.mp hg with h | h
              · exact hfrs g h
              · rw [List.mem_singleton] at h
                rw [h]
                refine ⟨?_, _, hit⟩
                have h2 := sideRec_suffix loc.rights 1 hsr
                simpa using h2
            · intro g hg
              simp only [Location.frames_mk] at hg
              cases hfr0 : loc.frames with
              | nil =>
                rw [hfr0] at hg
                simp only [List.nil_append, List.head?_cons,
                  Option.some.injEq] at hg
                subst hg
                rcases hbot hfr0 with hc | hc
                · rw [hc, create]
                  rfl
                · exact absurd hc hrne
              | cons a t =>
                rw [hfr0] at hg
                simp only [List.cons_append, List.head?_cons,
                  Option.some.injEq] at hg
                exact hhead g (by rw [hfr0, List.head?_cons, hg])

/-- C6 (amended): for a marker that the pre-order walk can reach — it
occurs in `preVisit T` (so no enclosing void, marker, or text node hides
it) and is not the root record itself — `gotoMarker` returns a non-null
location whose cursor is exactly that marker; for a tree that does not
contain the marker anywhere, `gotoMarker` returns null; neither case
raises an error. -/
theorem claim_C6_gotoMarker (T mrk : Record) (hm : isMarker mrk = true) :
    (mrk ∈ preVisit T → mrk ≠ T →
      ∃ loc, gotoMarker (create T) mrk = some (some loc) ∧
        afterI loc = some (.rcd mrk)) ∧
    (occursB mrk T = false → gotoMarker (create T) mrk = some none) := by
  have hInv : wpowInv T (create T) := by
    refine ⟨fun x hx => ?_, fun g hg => absurd hg (by simp [create]),
      fun _ => Or.inl rfl, fun g hg => by simp [create, List.head?] at hg⟩
    rw [create] at hx
    simp at hx
    exact ⟨T, hx⟩
  have hVL : visitList (create T) = preVisit T := by
    rw [visitList, create]
    simp only [Location.rights_mk, Location.frames_mk]
    rw [preVisitItems, preVisitItems, visitFrames]
    simp
  have hrun := wpowLoopF_run T mrk (walkMeasure (create T) + 1) (create T)
    (by omega) hInv
  rw [hVL] at hrun
  have hroot_eq : root (create T) = create T := rfl
  have hW : walkPreOrderWhile (create T) (markerPred mrk) =
      wpowLoopF (markerPred mrk) (walkMeasure (create T) + 1) (create T) := rfl
  constructor
  · intro hmem hne
    have hex : ∃ x ∈ preVisit T, (fun r => isMarker r && beqR r mrk) x = true :=
      ⟨mrk, hmem, by simp [hm, beqR_refl]⟩
    obtain ⟨r2, hfind⟩ : ∃ r2, (preVisit T).find?
        (fun r => isMarker r && beqR r mrk) = some r2 :=
      Option.isSome_iff_exists.mp (List.find?_isSome.mpr hex)
    have hpr2 := List.find?_some hfind
    have hpr3 : isMarker r2 = true ∧ beqR r2 mrk = true := by simpa using hpr2
    have hr2m : r2 = mrk := (beqR_iff r2 mrk).mp hpr3.2
    rw [hfind] at hrun
    obtain ⟨l, hres, hA, hRootImp⟩ := hrun
    have hRootF : isRoot l = false := by
      by_cases h : isRoot l = true
      · exfalso
        rw [hRootImp h, create, afterI] at hA
        simp at hA
        exact hne (by rw [← hr2m, ← hA])
      · simpa using h
    refine ⟨l, ?_, by rw [hA, hr2m]⟩
    rw [gotoMarker, hroot_eq, hW, hres]
    simp [hRootF]
  · intro hocc
    have hnone : (preVisit T).find? (fun r => isMarker r && beqR r mrk) =
        none := by
      rw [List.find?_eq_none]
      intro x hx hpx
      have hpx2 : isMarker x = true ∧ beqR x mrk = true := by simpa using hpx
      have hxm : x = mrk := (beqR_iff x mrk).mp hpx2.2
      rw [hxm] at hx
      exact absurd (preVisit_mem_occurs T mrk hx) (by simp [hocc])
    rw [hnone] at hrun
    obtain ⟨l, hres, hRoot⟩ := hrun
    rw [gotoMarker, hroot_eq, hW, hres]
    simp [hRoot]

/-- Witness for C6's amended statement: the marker sits inside `<p>`. -/
theorem claim_C6_witness :
    isMarker (Marker 1 "start") = true ∧
    Marker 1 "start" ∈ preVisit (mkElem "P" [Marker 1 "start"]) ∧
    Marker 1 "start" ≠ mkElem "P" [Marker 1 "start"] ∧
    ∃ loc, gotoMarker (create (mkElem "P" [Marker 1 "start"]))
        (Marker 1 "start") = some (some loc) ∧
      afterI loc = some (.rcd (Marker 1 "start")) := by
  have hmem : Marker 1 "start" ∈ preVisit (mkElem "P" [Marker 1 "start"]) := by
    rw [mkElem, preVisit]
    simp [isVoidRec, isTextRecord, isMarker, Record.name, Record.isMarkerF,
      isVoidNode, preVisitL, preVisit, Marker]
  have hne : Marker 1 "start" ≠ mkElem "P" [Marker 1 "start"] := by
    simp [Marker, mkElem]
  exact ⟨rfl, hmem, hne,
    (claim_C6_gotoMarker (mkElem "P" [Marker 1 "start"]) (Marker 1 "start")
      rfl).1 hmem hne⟩

/-- C6 counterexample: a tree that consists of the marker record itself
does contain it, yet `gotoMarker` returns null (the walk's final
location is the session root), so the claim as stated fails. -/
theorem claim_C6_counterexample :
    occursB (Marker 1 "start") (Marker 1 "start") = true ∧
    gotoMarker (create (Marker 1 "start")) (Marker 1 "start") = some none := by
  constructor
  · rw [Marker, occursB]
    simp [beqR_refl]
  · have hpred : markerPred (Marker 1 "start")
        (create (Marker 1 "start")) = false := by
      simp [markerPred, afterI, create, isMarker, Marker, Record.isMarkerF,
        beqR_refl]
    have hW : walkPreOrderWhile (create (Marker 1 "start"))
        (markerPred (Marker 1 "start")) =
        wpowLoopF (markerPred (Marker 1 "start"))
          (walkMeasure (create (Marker 1 "start")) + 1)
          (create (Marker 1 "start")) := rfl
    have hrun : wpowLoopF (markerPred (Marker 1 "start"))
        (walkMeasure (create (Marker 1 "start")) + 1)
        (create (Marker 1 "start")) = some (create (Marker 1 "start")) := by
      rw [wpowLoopF, hpred]
      simp
    rw [gotoMarker, show root (create (Marker 1 "start")) =
      create (Marker 1 "start") from rfl, hW, hrun]
    simp [isRoot, create]
